import Mathlib

/-!
Verification of the use-case-knowledge-base ingestion/retrieval core.

The JavaScript source is shallowly embedded: strings are modelled as
`List Char` (JavaScript works on UTF-16 code units; all inputs exercised
here are code points below 0x10000, where the two notions agree),
asynchronous functions returning or throwing are modelled as pure
functions into `Except`, network providers and the system clock are
oracles passed as explicit parameters, and the SQLite store is a pair of
row lists updated atomically.  Each model definition carries a comment
naming the source function it embeds.
-/

namespace KB

/-- The JavaScript whitespace class used by the regexps and by trim
(regexp \s = WhiteSpace plus LineTerminator): tab, line feed, vertical
tab, form feed, carriage return, space, no-break space, Ogham space
mark, the Unicode space separators U+2000..U+200A, line separator,
paragraph separator, narrow no-break space, medium mathematical space,
ideographic space and the byte-order mark. -/
def jsWs (c : Char) : Bool :=
  c == ' ' || c == '\t' || c == '\n' || c == '\r' ||
  c == Char.ofNat 11 || c == Char.ofNat 12 ||
  c == Char.ofNat 0xa0 || c == Char.ofNat 0x1680 ||
  c == Char.ofNat 0x2000 || c == Char.ofNat 0x2001 ||
  c == Char.ofNat 0x2002 || c == Char.ofNat 0x2003 ||
  c == Char.ofNat 0x2004 || c == Char.ofNat 0x2005 ||
  c == Char.ofNat 0x2006 || c == Char.ofNat 0x2007 ||
  c == Char.ofNat 0x2008 || c == Char.ofNat 0x2009 ||
  c == Char.ofNat 0x200a || c == Char.ofNat 0x2028 ||
  c == Char.ofNat 0x2029 || c == Char.ofNat 0x202f ||
  c == Char.ofNat 0x205f || c == Char.ofNat 0x3000 ||
  c == Char.ofNat 0xfeff

/-- JavaScript RegExp line terminators (what the dot does not match). -/
def isLineTerm (c : Char) : Bool :=
  c == '\n' || c == '\r' || c == Char.ofNat 0x2028 || c == Char.ofNat 0x2029

/-- String.prototype.trim, on char lists. -/
def trimChars (l : List Char) : List Char :=
  ((l.dropWhile jsWs).reverse.dropWhile jsWs).reverse

/-- Lower-case a char list (Char.toLower; ASCII-faithful). -/
def lowerL (l : List Char) : List Char := l.map Char.toLower

/-- Case-insensitive prefix stripping: if the lower-cased input starts
with the (already lower-case) pattern, return the remainder. -/
def stripCIGo : List Char → List Char → Option (List Char)
  | [], l => some l
  | _ :: _, [] => none
  | p :: ps, c :: cs => if p == c.toLower then stripCIGo ps cs else none

def stripCI (pat : String) (l : List Char) : Option (List Char) :=
  stripCIGo pat.data l

/- ===================== Chunker (src/chunk.js) ===================== -/

def CHUNK_SIZE : Nat := 800
def OVERLAP : Nat := 200
def MIN_CHUNK : Nat := 100

/-- The sentence-boundary chars of SENTENCE_RE. -/
def isPunct (c : Char) : Bool := c == '.' || c == '!' || c == '?'

/-- Whether a char list starts with a whitespace char. -/
def headWs : List Char → Bool
  | d :: _ => jsWs d
  | [] => false

/-- text.split(SENTENCE_RE) where SENTENCE_RE is whitespace preceded by
a sentence-ending punctuation char (a lookbehind, so the whitespace run
is consumed by the split).  `skipping` is true while we are inside the
whitespace run of a matched separator. -/
def splitSentencesGo : List Char → List Char → Bool → List (List Char)
  | [], acc, _ => [acc.reverse]
  | c :: rest, acc, skipping =>
    if skipping && jsWs c then splitSentencesGo rest acc true
    else
      if isPunct c && headWs rest then
        (c :: acc).reverse :: splitSentencesGo rest [] true
      else splitSentencesGo rest (c :: acc) false

def splitSentences (text : List Char) : List (List Char) :=
  splitSentencesGo text [] false

/-- The loop body of chunkText: state is (chunks so far, current buffer);
one sentence is folded in. -/
def chunkStep (p : List (List Char) × List Char) (s : List Char) : List (List Char) × List Char :=
  if CHUNK_SIZE < p.2.length + s.length ∧ MIN_CHUNK ≤ p.2.length then
    (p.1 ++ [trimChars p.2], p.2.drop (p.2.length - OVERLAP) ++ s)
  else
    (p.1, if p.2.isEmpty then s else p.2 ++ ' ' :: s)

/-- The tail handling of chunkText: a trailing buffer below the floor is
merged into the previous chunk, otherwise pushed as its own chunk. -/
def chunkFinish (chunks : List (List Char)) (current : List Char) : List (List Char) :=
  let t := trimChars current
  if t.isEmpty then chunks
  else if t.length < MIN_CHUNK ∧ chunks ≠ [] then
    chunks.dropLast ++ [chunks.getLastD [] ++ ' ' :: t]
  else chunks ++ [t]

/-- chunkText from src/chunk.js, on char lists. -/
def chunkTextL (text : List Char) : List (List Char) :=
  if text.isEmpty then []
  else if text.length < MIN_CHUNK then [text]
  else
    let sentences := (splitSentences text).filter (fun s => !(trimChars s).isEmpty)
    if sentences.isEmpty then [text]
    else
      let p := sentences.foldl chunkStep ([], [])
      chunkFinish p.1 p.2

/-- chunkText on Lean strings. -/
def chunkText (text : String) : List String :=
  (chunkTextL text.data).map (fun l => String.mk l)

/-- The reconstruction described by the spec for claim C2: keep the first
chunk whole and drop from every later chunk the overlap prefix carried
over from its predecessor. -/
def reconstructChunks (chunks : List (List Char)) : List Char :=
  match chunks with
  | [] => []
  | c :: rest => c ++ (rest.map (fun d => d.drop OVERLAP)).flatten

/- ===================== C2 lemmas ===================== -/

theorem dropWhile_of_none {p : Char → Bool} {l : List Char}
    (h : ∀ c ∈ l, p c = false) : l.dropWhile p = l := by
  cases l with
  | nil => rfl
  | cons c rest => simp [List.dropWhile_cons, h c (by simp)]

theorem trimChars_of_no_ws {l : List Char}
    (h : ∀ c ∈ l, jsWs c = false) : trimChars l = l := by
  unfold trimChars
  rw [dropWhile_of_none h, dropWhile_of_none, List.reverse_reverse]
  intro c hc
  exact h c (by simpa using hc)

theorem splitSentencesGo_of_no_ws (l : List Char) :
    ∀ acc, (∀ c ∈ l, jsWs c = false) →
      splitSentencesGo l acc false = [acc.reverse ++ l] := by
  induction l with
  | nil => intro acc _; simp [splitSentencesGo]
  | cons c rest ih =>
    intro acc h
    have hc : jsWs c = false := h c (by simp)
    have hrest : ∀ d ∈ rest, jsWs d = false := fun d hd => h d (by simp [hd])
    have hhead : headWs rest = false := by
      cases rest with
      | nil => rfl
      | cons d _ => exact hrest d (by simp)
    rw [splitSentencesGo, if_neg (by simp [hc]), if_neg (by simp [hhead]),
      ih (c :: acc) hrest]
    simp

/-- Claim C2 (amended): exact reconstruction holds for inputs below the
100-char floor and for inputs with no whitespace: in both cases chunkText
returns the input unchanged as a single chunk, so concatenating the
unique chunk text recovers the input exactly.  (In general the claim
fails: sentence splitting consumes inter-sentence whitespace and chunks
are trimmed, see the counterexample.) -/
theorem chunkText_exact_recovery (text : List Char) (hne : text ≠ [])
    (h : text.length < MIN_CHUNK ∨ ∀ c ∈ text, jsWs c = false) :
    chunkTextL text = [text] ∧ reconstructChunks (chunkTextL text) = text := by
  have hemp : text.isEmpty = false := by
    cases text with
    | nil => exact absurd rfl hne
    | cons c rest => rfl
  have main : chunkTextL text = [text] := by
    by_cases hlen : text.length < MIN_CHUNK
    · simp [chunkTextL, hemp, hlen]
    · rcases h with h | h
      · exact absurd h hlen
      · have hsplit : splitSentences text = [text] := by
          simpa using splitSentencesGo_of_no_ws text [] h
        have htrim : trimChars text = text := trimChars_of_no_ws h
        simp only [chunkTextL, hemp, Bool.false_eq_true, if_false, if_neg hlen,
          hsplit, List.filter]
        rw [htrim]
        simp only [List.isEmpty_iff, hne, not_false_iff]
        have : (!(text.isEmpty)) = true := by simp [hemp]
        simp only [this, List.filter_nil]
        have hstep : chunkStep ([], []) text = ([], text) := by
          simp [chunkStep, MIN_CHUNK]
        simp only [List.isEmpty_nil, List.foldl, hstep, List.foldl_nil]
        simp [chunkFinish, htrim, hemp, List.isEmpty_iff, hne]
  refine ⟨main, ?_⟩
  rw [main]
  simp [reconstructChunks]

/-- Witness for chunkText_exact_recovery at a concrete short input. -/
theorem chunkText_exact_recovery_witness :
    chunkTextL ('a' :: 'b' :: 'c' :: []) = [('a' :: 'b' :: 'c' :: [])] := by
  exact (chunkText_exact_recovery ('a' :: 'b' :: 'c' :: [])
    (by decide) (Or.inl (by decide))).1

set_option maxRecDepth 4000 in
/-- Counterexample to claim C2 as stated: a 121-char input (120 letters
followed by a trailing space) is chunked into a single trimmed chunk, so
concatenating the unique chunk text loses the trailing space and does
not recover the original input. -/
theorem chunkText_concat_not_exact :
    reconstructChunks (chunkTextL (List.replicate 120 'a' ++ [' '])) ≠
      List.replicate 120 'a' ++ [' '] := by
  decide

/- ===================== Classifier (src/detect.js) ===================== -/

/-- Does the list start with the pattern "/status/" followed by a digit
(case-insensitively, as under the regexp i flag)? -/
def statusSuffix (s : List Char) : Bool :=
  match stripCI "/status/" s with
  | some (d :: _) => d.isDigit
  | _ => false

/-- Scan for the tail of TWITTER_RE after the host: the regexp demands at
least one non-line-terminator char, then "/status/" and a digit.  Each
step consumes one char into the dot-plus part. -/
def statusScan : List Char → Bool
  | [] => false
  | c :: rest =>
    if isLineTerm c then false
    else statusSuffix rest || statusScan rest

/-- Strip "https://" or "http://" (case-insensitive), as the ^https?:\/\/
part of the regexps does. -/
def stripScheme (url : List Char) : Option (List Char) :=
  match stripCI "https://" url with
  | some r => some r
  | none => stripCI "http://" url

/-- Strip an optional "www." (the (www\.)? groups). -/
def stripOptWww (l : List Char) : List Char :=
  match stripCI "www." l with
  | some r => r
  | none => l

/-- TWITTER_RE.test(url): tweet-permalink pattern. -/
def twitterMatch (url : List Char) : Bool :=
  match stripScheme url with
  | none => false
  | some r0 =>
    let r1 := stripOptWww r0
    match (match stripCI "twitter.com" r1 with
           | some r => some r
           | none => stripCI "x.com" r1) with
    | some ('/' :: s) => statusScan s
    | _ => false

/-- YOUTUBE_RE.test(url): prefix-only video pattern. -/
def videoMatch (url : List Char) : Bool :=
  match stripScheme url with
  | none => false
  | some r0 =>
    let r1 := stripOptWww r0
    (stripCI "youtube.com/watch?" r1).isSome ||
    (stripCI "youtu.be/" r1).isSome ||
    (stripCI "youtube.com/shorts/" r1).isSome

/-- What may follow ".pdf" for PDF_RE to match: end of string, or a
question mark and then any chars the dot matches (no line terminators)
up to the end. -/
def afterPdf : List Char → Bool
  | [] => true
  | c :: q => c == '?' && q.all (fun c => !isLineTerm c)

/-- PDF_RE.test(url): the raw string contains ".pdf" (case-insensitive)
followed only by an optional "?..." suffix, i.e. \.pdf(\?.*)?$ . -/
def pdfScan : List Char → Bool
  | [] => false
  | c :: rest =>
    (match stripCIGo (String.data ".pdf") (c :: rest) with
     | some r => afterPdf r
     | none => false) || pdfScan rest

/-- /^https?:\/\//i test. -/
def isHttpHead (url : List Char) : Bool := (stripScheme url).isSome

/-- detectSourceType from src/detect.js.  The null input of JavaScript is
modelled by the empty string (both are falsy). -/
def detectSourceType (url : List Char) : String :=
  if url.isEmpty then "text"
  else if twitterMatch url then "tweet"
  else if videoMatch url then "video"
  else if pdfScan url then "pdf"
  else if isHttpHead url then "article"
  else "other"

/-- The declarative reading of PDF_RE: the url splits as some prefix,
then four chars spelling ".pdf" up to case, then either nothing or a
question mark followed by line-terminator-free chars. -/
def PdfDecomp (url : List Char) : Prop :=
  ∃ a p q, url = a ++ p ++ q ∧ lowerL p = String.data ".pdf" ∧
    (q = [] ∨ ∃ r, q = '?' :: r ∧ ∀ c ∈ r, isLineTerm c = false)

/- ===================== C9 lemmas ===================== -/

theorem stripCIGo_eq_some_iff (pat : List Char) :
    ∀ l r, stripCIGo pat l = some r ↔ ∃ p, l = p ++ r ∧ lowerL p = pat := by
  induction pat with
  | nil =>
    intro l r
    constructor
    · intro h
      exact ⟨[], by simpa [stripCIGo] using h, rfl⟩
    · rintro ⟨p, hl, hp⟩
      have : p = [] := by
        cases p with
        | nil => rfl
        | cons a b => simp [lowerL] at hp
      subst this
      simpa [stripCIGo] using hl
  | cons pc ps ih =>
    intro l r
    cases l with
    | nil =>
      constructor
      · intro h; simp [stripCIGo] at h
      · rintro ⟨p, hl, hp⟩
        have : p = [] ∧ r = [] := by
          constructor
          · cases p with
            | nil => rfl
            | cons a b => simp at hl
          · cases p <;> simp_all
        rcases this with ⟨h1, _⟩
        subst h1
        simp [lowerL] at hp
    | cons c cs =>
      constructor
      · intro h
        rw [stripCIGo] at h
        by_cases hc : pc == c.toLower
        · rw [if_pos hc] at h
          rcases (ih cs r).1 h with ⟨p2, hcs, hp2⟩
          refine ⟨c :: p2, by simp [hcs], ?_⟩
          simp [lowerL] at hp2 ⊢
          exact ⟨by simpa using (beq_iff_eq.1 hc).symm, hp2⟩
        · rw [if_neg hc] at h
          exact absurd h (by simp)
      · rintro ⟨p, hl, hp⟩
        cases p with
        | nil => simp [lowerL] at hp
        | cons a p2 =>
          simp [lowerL] at hp
          rcases hp with ⟨hpc, hps⟩
          simp at hl
          rcases hl with ⟨hac, hcs⟩
          rw [stripCIGo]
          subst hac
          rw [if_pos (by simp [hpc])]
          exact (ih cs r).2 ⟨p2, hcs, hps⟩

theorem afterPdf_iff (r : List Char) :
    afterPdf r = true ↔
      (r = [] ∨ ∃ rr, r = '?' :: rr ∧ ∀ c ∈ rr, isLineTerm c = false) := by
  cases r with
  | nil => simp [afterPdf]
  | cons c rest =>
    by_cases hc : c = '?'
    · subst hc
      simp only [afterPdf, beq_self_eq_true, Bool.true_and]
      rw [List.all_eq_true]
      constructor
      · intro h
        exact Or.inr ⟨rest, rfl, fun d hd => by simpa using h d hd⟩
      · rintro (h | ⟨rr, hrr, hall⟩)
        · exact absurd h (by simp)
        · have hrw : rest = rr := by injection hrr
          subst hrw
          intro d hd
          simp [hall d hd]
    · simp only [afterPdf, beq_iff_eq, hc, false_and, Bool.and_eq_true,
        false_iff]
      push_neg
      refine ⟨by simp, ?_⟩
      rintro rr hrr
      exact absurd (by injection hrr) hc

theorem pdfScan_iff (url : List Char) : pdfScan url = true ↔ PdfDecomp url := by
  induction url with
  | nil =>
    simp only [pdfScan, Bool.false_eq_true, false_iff]
    rintro ⟨a, p, q, h, hp, _⟩
    obtain ⟨h3, _⟩ := List.append_eq_nil.1 h.symm
    obtain ⟨_, hp0⟩ := List.append_eq_nil.1 h3
    subst hp0
    exact absurd hp (by decide)
  | cons c rest ih =>
    rw [pdfScan]
    rw [Bool.or_eq_true]
    constructor
    · rintro (h | h)
      · rcases hm : stripCIGo (String.data ".pdf") (c :: rest) with _ | r
        · rw [hm] at h; exact absurd h (by simp)
        · rw [hm] at h
          rcases (stripCIGo_eq_some_iff _ _ _).1 hm with ⟨p, hl, hp⟩
          rcases (afterPdf_iff r).1 h with hq | ⟨rr, hrr, hall⟩
          · exact ⟨[], p, r, by simpa using hl, hp, Or.inl hq⟩
          · exact ⟨[], p, r, by simpa using hl, hp, Or.inr ⟨rr, hrr, hall⟩⟩
      · rcases ih.1 h with ⟨a, p, q, hl, hp, hq⟩
        exact ⟨c :: a, p, q, by simp [hl], hp, hq⟩
    · rintro ⟨a, p, q, hl, hp, hq⟩
      cases a with
      | nil =>
        left
        have hm : stripCIGo (String.data ".pdf") (c :: rest) = some q := by
          rw [stripCIGo_eq_some_iff]
          exact ⟨p, by simpa using hl, hp⟩
        rw [hm]
        rw [afterPdf_iff]
        exact hq
      | cons a0 a2 =>
        right
        apply ih.2
        refine ⟨a2, p, q, ?_, hp, hq⟩
        simpa using congrArg List.tail hl

/-- Claim C9 (amended): the classifier labels a url "pdf" exactly when it
is nonempty, matches neither the tweet nor the video pattern, and the
*raw url string* decomposes as anything followed by ".pdf" (up to case)
followed by nothing or a "?..." query suffix.  The check is on the raw
string rather than the url path: a query value ending in ".pdf" also
classifies as "pdf", no http(s) scheme is required, and a fragment after
".pdf" defeats the check.  The concrete example of the spec still holds. -/
theorem detect_pdf_characterization :
    (∀ url : List Char, detectSourceType url = "pdf" ↔
      (url ≠ [] ∧ twitterMatch url = false ∧ videoMatch url = false ∧
        PdfDecomp url)) ∧
    detectSourceType (String.data "https://example.com/doc.pdf?x=1") = "pdf" := by
  constructor
  · intro url
    constructor
    · intro h
      rw [detectSourceType] at h
      by_cases h1 : url.isEmpty
      · rw [if_pos h1] at h; exact absurd h (by decide)
      · rw [if_neg h1] at h
        by_cases h2 : twitterMatch url
        · rw [if_pos h2] at h; exact absurd h (by decide)
        · rw [if_neg h2] at h
          by_cases h3 : videoMatch url
          · rw [if_pos h3] at h; exact absurd h (by decide)
          · rw [if_neg h3] at h
            by_cases h4 : pdfScan url
            · exact ⟨by simpa using h1, by simpa using h2, by simpa using h3,
                (pdfScan_iff url).1 h4⟩
            · rw [if_neg h4] at h
              by_cases h5 : isHttpHead url
              · rw [if_pos h5] at h; exact absurd h (by decide)
              · rw [if_neg h5] at h; exact absurd h (by decide)
    · rintro ⟨h1, h2, h3, h4⟩
      rw [detectSourceType, if_neg (by simpa using h1), if_neg (by simp [h2]),
        if_neg (by simp [h3]), if_pos ((pdfScan_iff url).2 h4)]
  · decide

/-- The path of a url ignoring the query string, per the wording of the
spec for claim C9. -/
def pathEndsInPdf (url : List Char) : Bool :=
  (String.data ".pdf").isSuffixOf (lowerL (url.takeWhile (fun c => !(c == '?'))))

/-- Counterexample to claim C9 as stated: this url path does not end in
".pdf" (the ".pdf" sits in a query value), yet the classifier returns
"pdf" rather than "article", because PDF_RE tests the raw url string. -/
theorem detect_pdf_query_value_counterexample :
    detectSourceType (String.data "https://example.com/a?x=.pdf") = "pdf" ∧
      pathEndsInPdf (String.data "https://example.com/a?x=.pdf") = false ∧
      isHttpHead (String.data "https://example.com/a?x=.pdf") = true := by
  refine ⟨by decide, by decide, by decide⟩

/- ===================== Lock (lock.js) ===================== -/

def STALE_MS : Int := 15 * 60 * 1000

/-- The on-disk lock marker: absent, unparsable JSON, or a parsed record
with the owning pid and acquisition timestamp. -/
inductive MarkerFile where
  | absent : MarkerFile
  | corrupt : MarkerFile
  | valid : Nat → Int → MarkerFile
deriving DecidableEq

/-- The environment acquireLock reads: process liveness (process.kill
with signal 0), the clock, and the own pid. -/
structure LockEnv where
  alive : Nat → Bool
  now : Int
  selfPid : Nat

def busyMsg : String := "Another ingestion is running. Try again later."

/-- The try block of acquireLock: parse the marker and throw busy if the
holder is fresh and alive; a parse failure is its own kind of throw. -/
inductive LockThrow where
  | busy : LockThrow
  | parseFail : LockThrow
deriving DecidableEq

def lockTryBlock (env : LockEnv) : MarkerFile → Except LockThrow Unit
  | .corrupt => .error .parseFail
  | .valid pid ts =>
    if env.now - ts < STALE_MS ∧ env.alive pid = true then .error .busy
    else .ok ()
  | .absent => .ok ()

/-- acquireLock from lock.js: returns the busy error, or the new marker
file state after the old marker (if any) is unlinked and a fresh one
recording the caller pid and timestamp is written.  The catch block
rethrows only the busy error and swallows parse failures. -/
def acquireLock (env : LockEnv) (file : MarkerFile) : Except String MarkerFile :=
  match file with
  | .absent => .ok (.valid env.selfPid env.now)
  | f =>
    match lockTryBlock env f with
    | .error .busy => .error busyMsg
    | .error .parseFail => .ok (.valid env.selfPid env.now)
    | .ok () => .ok (.valid env.selfPid env.now)

/-- Claim C8 (confirmed): acquisition fails busy exactly when a parsed
marker exists whose owner is alive and whose age is under the 15-minute
staleness threshold; in every other case (stale, dead owner, unparsable,
absent) the old marker is replaced by a fresh marker holding the caller
pid and timestamp and acquisition succeeds. -/
theorem acquireLock_characterization (env : LockEnv) (file : MarkerFile) :
    (acquireLock env file = .error busyMsg ↔
      ∃ pid ts, file = .valid pid ts ∧ env.now - ts < STALE_MS ∧
        env.alive pid = true) ∧
    ((¬ ∃ pid ts, file = .valid pid ts ∧ env.now - ts < STALE_MS ∧
        env.alive pid = true) →
      acquireLock env file = .ok (.valid env.selfPid env.now)) := by
  constructor
  · cases file with
    | absent =>
      simp only [acquireLock]
      refine iff_of_false (by simp) ?_
      rintro ⟨pid, ts, h, _⟩
      exact absurd h (by simp)
    | corrupt =>
      simp only [acquireLock, lockTryBlock]
      constructor
      · intro h; exact absurd h (by simp)
      · rintro ⟨pid, ts, h, _⟩; exact absurd h (by simp)
    | valid pid ts =>
      simp only [acquireLock, lockTryBlock]
      by_cases h : env.now - ts < STALE_MS ∧ env.alive pid = true
      · rw [if_pos h]
        simp only [true_iff]
        exact ⟨pid, ts, rfl, h⟩
      · rw [if_neg h]
        refine iff_of_false (by simp) ?_
        rintro ⟨pid2, ts2, heq, hlt, hal⟩
        obtain ⟨h1, h2⟩ : pid = pid2 ∧ ts = ts2 := by
          injection heq with h1 h2
          exact ⟨h1, h2⟩
        subst h1; subst h2
        exact absurd ⟨hlt, hal⟩ h
  · intro h
    cases file with
    | absent => rfl
    | corrupt => rfl
    | valid pid ts =>
      simp only [acquireLock, lockTryBlock]
      rw [if_neg]
      intro hc
      exact h ⟨pid, ts, rfl, hc⟩

/-- Witness for acquireLock_characterization: a stale marker (20 minutes
old) with a live owner is stolen and replaced. -/
theorem acquireLock_characterization_witness :
    acquireLock ⟨fun _ => true, 1200000, 42⟩ (.valid 7 0) =
      .ok (.valid 42 1200000) := by
  exact (acquireLock_characterization ⟨fun _ => true, 1200000, 42⟩
    (.valid 7 0)).2 (by rintro ⟨pid, ts, heq, hlt, _⟩; revert hlt; injection heq with h1 h2; subst h2; decide)

/- ===================== Stable sorting ===================== -/

/-- Stable insertion of x into a le-sorted list: x goes before the first
element y with le x y, hence after every strictly-smaller-or-equal run
that precedes it.  Used to model the stable V8 Array.prototype.sort and
URLSearchParams.sort. -/
def insertBy (le : α → α → Bool) (x : α) : List α → List α
  | [] => [x]
  | y :: ys => if le x y then x :: y :: ys else y :: insertBy le x ys

/-- Stable sort by a boolean total preorder; extensionally equal to any
stable sort with the same comparator. -/
def sortBy (le : α → α → Bool) (l : List α) : List α :=
  l.foldr (insertBy le) []

theorem mem_insertBy (le : α → α → Bool) (x : α) (l : List α) :
    ∀ z, z ∈ insertBy le x l ↔ z = x ∨ z ∈ l := by
  induction l with
  | nil => intro z; simp [insertBy]
  | cons y ys ih =>
    intro z
    rw [insertBy]
    by_cases h : le x y
    · rw [if_pos h]; simp
    · rw [if_neg h]
      simp only [List.mem_cons, ih z]
      tauto

theorem pairwise_insertBy (le : α → α → Bool)
    (htrans : ∀ a b c, le a b = true → le b c = true → le a c = true)
    (htotal : ∀ a b, le a b = true ∨ le b a = true)
    (x : α) (l : List α) (hl : l.Pairwise (fun a b => le a b = true)) :
    (insertBy le x l).Pairwise (fun a b => le a b = true) := by
  induction l with
  | nil => simp [insertBy]
  | cons y ys ih =>
    rw [insertBy]
    rw [List.pairwise_cons] at hl
    by_cases h : le x y
    · rw [if_pos h]
      rw [List.pairwise_cons]
      constructor
      · intro z hz
        rcases List.mem_cons.1 hz with hz | hz
        · subst hz; exact h
        · exact htrans x y z h (hl.1 z hz)
      · exact List.pairwise_cons.2 hl
    · rw [if_neg h]
      rw [List.pairwise_cons]
      have hyx : le y x = true := by
        rcases htotal x y with h2 | h2
        · exact absurd h2 (by simpa using h)
        · exact h2
      constructor
      · intro z hz
        rcases (mem_insertBy le x ys z).1 hz with hz | hz
        · subst hz; exact hyx
        · exact hl.1 z hz
      · exact ih hl.2

theorem pairwise_sortBy (le : α → α → Bool)
    (htrans : ∀ a b c, le a b = true → le b c = true → le a c = true)
    (htotal : ∀ a b, le a b = true ∨ le b a = true)
    (l : List α) : (sortBy le l).Pairwise (fun a b => le a b = true) := by
  induction l with
  | nil => exact List.Pairwise.nil
  | cons y ys ih => exact pairwise_insertBy le htrans htotal y (sortBy le ys) ih

/-- One row of the chunks-join-sources query in retrieve.js, with the
embedding already deserialized.  Scores are kept abstract through the
`sim` parameter of queryModel because cosineSimilarity computes over
IEEE doubles; the ranking properties below hold for every scoring
function, in particular for cosine similarity. -/
structure ChunkCand where
  id : String
  source_id : String
  chunk_index : Nat
  content : List Char
  embedding : List Int
  embedding_dim : Nat
  url : String
  title : String
deriving DecidableEq

structure ResultRow where
  source_id : String
  chunk_id : String
  chunk_index : Nat
  score : ℚ
  excerpt : List Char
  url : String
  title : String
deriving DecidableEq

/-- The three chars the source appends when the excerpt is truncated. -/
def excerptSuffix : List Char :=
  [Char.ofNat 0xE2, Char.ofNat 0x20AC, Char.ofNat 0xA6]

def mkResultRow (r : ChunkCand) (s : ℚ) : ResultRow :=
  ⟨r.source_id, r.id, r.chunk_index, s,
    if 2500 < r.content.length then r.content.take 2500 ++ excerptSuffix
    else r.content,
    r.url, r.title⟩

/-- The comparator b.score - a.score of the sort call: descending. -/
def scoreDesc (a b : ChunkCand × ℚ) : Bool := decide (b.2 ≤ a.2)

/-- The per-source dedup walk of retrieve.js: keep the first (highest)
chunk per source, stop once the accumulated results reach topK. -/
def dedupLoop (topK : Nat) : List (ChunkCand × ℚ) → List String → List ResultRow → List ResultRow
  | [], _, acc => acc.reverse
  | (r, s) :: rest, seen, acc =>
    if r.source_id ∈ seen then dedupLoop topK rest seen acc
    else
      if topK ≤ (mkResultRow r s :: acc).length then
        (mkResultRow r s :: acc).reverse
      else dedupLoop topK rest (r.source_id :: seen) (mkResultRow r s :: acc)

/-- query from src/retrieve.js, after the query embedding has been
obtained: filter rows on matching dim, score, sort descending (stable,
as the V8 sort is), dedup per source up to topK. -/
def queryModel (sim : List Int → List Int → ℚ) (qEmb : List Int) (qDim : Nat)
    (rows : List ChunkCand) (topK : Nat) : List ResultRow :=
  let cand := rows.filter (fun r => r.embedding_dim == qDim)
  if cand.isEmpty then []
  else
    let scored := cand.map (fun r => (r, sim qEmb r.embedding))
    dedupLoop topK (sortBy scoreDesc scored) [] []

/- ===================== C6 lemmas ===================== -/

theorem dedupLoop_invariants (topK : Nat) (l : List (ChunkCand × ℚ)) :
    ∀ seen acc,
      l.Pairwise (fun a b => b.2 ≤ a.2) →
      (∀ r ∈ acc, r.source_id ∈ seen) →
      acc.Pairwise (fun a b => a.source_id ≠ b.source_id) →
      acc.Pairwise (fun a b => a.score ≤ b.score) →
      (∀ r ∈ acc, ∀ p ∈ l, p.2 ≤ r.score) →
      acc.length < topK →
      (dedupLoop topK l seen acc).Pairwise
          (fun a b => a.source_id ≠ b.source_id) ∧
        (dedupLoop topK l seen acc).Pairwise (fun a b => b.score ≤ a.score) ∧
        (dedupLoop topK l seen acc).length ≤ topK := by
  induction l with
  | nil =>
    intro seen acc _ _ hnodup hsorted _ hlen
    refine ⟨?_, ?_, ?_⟩
    · rw [dedupLoop, List.pairwise_reverse]
      exact hnodup.imp fun h => h.symm
    · rw [dedupLoop, List.pairwise_reverse]
      exact hsorted
    · rw [dedupLoop]
      simpa using le_of_lt hlen
  | cons hd rest ih =>
    intro seen acc hsorted haccseen hnodup haccsorted hbridge hlen
    obtain ⟨r, s⟩ := hd
    rw [dedupLoop]
    by_cases hseen : r.source_id ∈ seen
    · rw [if_pos hseen]
      exact ih seen acc hsorted.of_cons haccseen hnodup haccsorted
        (fun r2 h2 p hp => hbridge r2 h2 p (by simp [hp])) hlen
    · rw [if_neg hseen]
      have hrowseen : ∀ r2 ∈ acc, r2.source_id ≠ (mkResultRow r s).source_id := by
        intro r2 h2 hEq
        apply hseen
        have hm : (mkResultRow r s).source_id = r.source_id := rfl
        rw [hm] at hEq
        exact hEq ▸ haccseen r2 h2
      have hrowge : ∀ r2 ∈ acc, (mkResultRow r s).score ≤ r2.score := by
        intro r2 h2
        exact hbridge r2 h2 (r, s) (by simp)
      have hnodup2 : ((mkResultRow r s) :: acc).Pairwise
          (fun a b => a.source_id ≠ b.source_id) := by
        rw [List.pairwise_cons]
        exact ⟨fun r2 h2 => fun hEq => hrowseen r2 h2 hEq.symm, hnodup⟩
      have hsorted2 : ((mkResultRow r s) :: acc).Pairwise
          (fun a b => a.score ≤ b.score) := by
        rw [List.pairwise_cons]
        exact ⟨hrowge, haccsorted⟩
      by_cases hfull : topK ≤ ((mkResultRow r s) :: acc).length
      · rw [if_pos hfull]
        refine ⟨?_, ?_, ?_⟩
        · rw [List.pairwise_reverse]
          exact hnodup2.imp fun h => h.symm
        · rw [List.pairwise_reverse]
          exact hsorted2
        · simp only [List.length_reverse, List.length_cons]
          omega
      · rw [if_neg hfull]
        apply ih
        · exact hsorted.of_cons
        · intro r2 h2
          rcases List.mem_cons.1 h2 with h2 | h2
          · subst h2; exact List.mem_cons_self _ _
          · exact List.mem_cons_of_mem _ (haccseen r2 h2)
        · exact hnodup2
        · exact hsorted2
        · intro r2 h2 p hp
          rcases List.mem_cons.1 h2 with h2 | h2
          · subst h2
            have := (List.pairwise_cons.1 hsorted).1 p hp
            simpa [mkResultRow] using this
          · exact hbridge r2 h2 p (by simp [hp])
        · omega

/-- Claim C6 (amended): for every query embedding, row set and every
positive result limit, the result list has pairwise distinct Source
ids, is sorted by non-increasing score, and has at most topK entries.
(For topK = 0 the cap fails, see the counterexample: the loop pushes a
result before checking the cap.) -/
theorem query_result_invariants (sim : List Int → List Int → ℚ)
    (qEmb : List Int) (qDim : Nat) (rows : List ChunkCand) (topK : Nat)
    (h : 1 ≤ topK) :
    (queryModel sim qEmb qDim rows topK).Pairwise
        (fun a b => a.source_id ≠ b.source_id) ∧
      (queryModel sim qEmb qDim rows topK).Pairwise
        (fun a b => b.score ≤ a.score) ∧
      (queryModel sim qEmb qDim rows topK).length ≤ topK := by
  rw [queryModel]
  by_cases hc : (rows.filter (fun r => r.embedding_dim == qDim)).isEmpty
  · rw [if_pos hc]
    exact ⟨List.Pairwise.nil, List.Pairwise.nil, by simp⟩
  · rw [if_neg hc]
    apply dedupLoop_invariants
    · have := pairwise_sortBy scoreDesc
        (fun a b c hab hbc => by
          simp only [scoreDesc, decide_eq_true_eq] at hab hbc ⊢
          exact le_trans hbc hab)
        (fun a b => by
          simp only [scoreDesc]
          rcases le_total a.2 b.2 with hle | hle <;> simp [hle])
        ((rows.filter (fun r => r.embedding_dim == qDim)).map
          (fun r => (r, sim qEmb r.embedding)))
      exact this.imp fun hab => by
        simpa [scoreDesc, decide_eq_true_eq] using hab
    · intro r2 h2; exact absurd h2 (List.not_mem_nil r2)
    · exact List.Pairwise.nil
    · exact List.Pairwise.nil
    · intro r2 h2; exact absurd h2 (List.not_mem_nil r2)
    · simpa using h

/-- A one-row store used for the C6 witness and counterexample. -/
def sampleRow : ChunkCand := ⟨"c1", "s1", 0, [], [1], 1, "u", "t"⟩

/-- Witness for query_result_invariants at a concrete store. -/
theorem query_result_invariants_witness :
    (queryModel (fun _ _ => (0 : ℚ)) [1] 1 [sampleRow] 10).length ≤ 10 := by
  exact (query_result_invariants (fun _ _ => (0 : ℚ)) [1] 1 [sampleRow] 10
    (by decide)).2.2

/-- Counterexample to claim C6 as stated for limit zero: the loop pushes
one result before checking the cap, so a zero limit still yields one
result. -/
theorem query_zero_limit_counterexample :
    ¬ ((queryModel (fun _ _ => (0 : ℚ)) [1] 1 [sampleRow] 0).length ≤ 0) := by
  decide

/- ===================== Embedding gateway (src/embed.js) ===================== -/

/-- Embedding vectors; the numeric payload is irrelevant to the claims,
so vectors of integers stand in for the float arrays. -/
abbrev Vec := List Int

def MAX_INPUT : Nat := 8000
def BATCH_SIZE : Nat := 10

/-- The per-text record stored in the LRU cache and in the results
array: { embedding, dim, provider, model }.  The embedding is an Option
because result.embeddings[j] is undefined when a provider returns fewer
vectors than the batch size (the source does not check). -/
structure CacheEntry where
  embedding : Option Vec
  dim : Nat
  provider : String
  model : String
deriving DecidableEq

/-- The normalized result of one successful provider call. -/
structure ProviderSuccess where
  embeddings : List Vec
  dim : Nat
  provider : String
  model : String
deriving DecidableEq

/-- The LRUCache class: a JS Map in insertion order, oldest first. -/
structure LRU where
  max : Nat
  entries : List (String × CacheEntry)
deriving DecidableEq

/-- Pure membership lookup (Map.prototype.get without the reordering). -/
def LRU.lookup (c : LRU) (k : String) : Option CacheEntry :=
  (c.entries.find? (fun e => e.1 == k)).map (fun e => e.2)

/-- LRUCache.get: on a hit, move the entry to the newest position. -/
def LRU.get (c : LRU) (k : String) : Option CacheEntry × LRU :=
  match c.entries.find? (fun e => e.1 == k) with
  | none => (none, c)
  | some kv =>
    (some kv.2, ⟨c.max, (c.entries.eraseP (fun e => e.1 == k)) ++ [kv]⟩)

/-- LRUCache.set: replace an existing key, else evict the oldest entry
when at capacity, then append as newest. -/
def LRU.set (c : LRU) (k : String) (v : CacheEntry) : LRU :=
  if c.entries.any (fun e => e.1 == k) then
    ⟨c.max, (c.entries.eraseP (fun e => e.1 == k)) ++ [(k, v)]⟩
  else if c.max ≤ c.entries.length then
    ⟨c.max, c.entries.tail ++ [(k, v)]⟩
  else ⟨c.max, c.entries ++ [(k, v)]⟩

/-- t.slice(0, MAX_INPUT): input truncation applied before any provider
call. -/
def truncMax (t : String) : String := String.mk (t.data.take MAX_INPUT)

/-- The retry helper: up to `rem + 1` more attempts after attempt i; the
error of the last attempt propagates.  The attempt index feeds the
network oracle, modelling a call whose outcome may differ per attempt. -/
def retryGo (fn : Nat → Except String α) (i : Nat) : Nat → Except String α
  | 0 => fn i
  | rem + 1 =>
    match fn i with
    | .ok a => .ok a
    | .error _ => retryGo fn (i + 1) rem

/-- retry(fn) with the default 3 attempts. -/
def retryModel (fn : Nat → Except String α) : Except String α := retryGo fn 0 2

/-- embedGemini: truncate, retry the network call, then read the values
and take dim from the first entry (a TypeError when the response list is
empty). -/
def embedGeminiM (g : Nat → List String → Except String (List Vec))
    (texts : List String) : Except String ProviderSuccess :=
  match retryModel (fun i => g i (texts.map truncMax)) with
  | .error e => .error e
  | .ok vs =>
    match vs with
    | [] => .error "TypeError: reading 0 of empty embeddings"
    | v :: _ => .ok ⟨vs, v.length, "google", "text-embedding-004"⟩

/-- embedOpenAI: truncate, retry, then re-sort the response by its own
declared index (a stable numeric sort) and read dim from the first
entry. -/
def embedOpenAIM (o : Nat → List String → Except String (List (Nat × Vec)))
    (texts : List String) : Except String ProviderSuccess :=
  match retryModel (fun i => o i (texts.map truncMax)) with
  | .error e => .error e
  | .ok data =>
    match sortBy (fun a b => decide (a.1 ≤ b.1)) data with
    | [] => .error "TypeError: reading 0 of empty data"
    | d :: ds =>
      .ok ⟨(d :: ds).map (fun x => x.2), d.2.length, "openai",
        "text-embedding-3-small"⟩

/-- The combined error thrown when both providers fail on one batch. -/
def combineErr (e1 e2 : String) : String :=
  "Embedding failed.\n  Gemini: " ++ e1 ++ "\n  OpenAI: " ++ e2

/-- The try/catch ladder of the batch loop: primary, then fallback with
the identical batch, else the combined error.  Also returns the provider
invocations made, for the call-trace statements. -/
def tryProviders (g : Nat → List String → Except String (List Vec))
    (o : Nat → List String → Except String (List (Nat × Vec)))
    (batchTexts : List String) :
    Except String ProviderSuccess × List (String × List String) :=
  match embedGeminiM g batchTexts with
  | .ok r => (.ok r, [("gemini", batchTexts)])
  | .error e1 =>
    match embedOpenAIM o batchTexts with
    | .ok r => (.ok r, [("gemini", batchTexts), ("openai", batchTexts)])
    | .error e2 =>
      (.error (combineErr e1 e2),
        [("gemini", batchTexts), ("openai", batchTexts)])

/-- uncached.slice(b, b + BATCH_SIZE) batching, as successive chunks. -/
def splitEveryGo (n : Nat) : List α → List α → List (List α)
  | [], cur => if cur.isEmpty then [] else [cur.reverse]
  | x :: xs, cur =>
    if n ≤ cur.length + 1 then (x :: cur).reverse :: splitEveryGo n xs []
    else splitEveryGo n xs (x :: cur)

def splitEvery (n : Nat) (l : List α) : List (List α) := splitEveryGo n l []

/-- The cache-scan loop at the top of embedTexts: per input position a
hit entry or a miss recorded with its original index. -/
def scanCacheGo : LRU → List String → Nat →
    LRU × List (Option CacheEntry) × List (String × Nat)
  | c, [], _ => (c, [], [])
  | c, t :: rest, i =>
    let g := c.get t
    match g.1 with
    | some e =>
      let r := scanCacheGo g.2 rest (i + 1)
      (r.1, some e :: r.2.1, r.2.2)
    | none =>
      let r := scanCacheGo g.2 rest (i + 1)
      (r.1, none :: r.2.1, (t, i) :: r.2.2)

/-- The per-batch write-back: results[uncachedIdx[j]] and cache.set for
every batch member j, with the vector result.embeddings[j]. -/
def writeBatchGo (r : ProviderSuccess) :
    List (String × Nat) → Nat → List (Option CacheEntry) → LRU →
    List (Option CacheEntry) × LRU
  | [], _, results, c => (results, c)
  | (t, idx) :: rest, j, results, c =>
    let entry : CacheEntry := ⟨r.embeddings.get? j, r.dim, r.provider, r.model⟩
    writeBatchGo r rest (j + 1) (results.set idx (some entry)) (c.set t entry)

/-- The provider/model/dim triple tracked across batches. -/
structure PMD where
  provider : String
  model : String
  dim : Nat
deriving DecidableEq

/-- The batch loop of embedTexts.  On a batch failure the loop rethrows
at once: results and cache keep only the effects of earlier batches. -/
def runBatchesGo (g : Nat → List String → Except String (List Vec))
    (o : Nat → List String → Except String (List (Nat × Vec))) :
    List (List (String × Nat)) → List (Option CacheEntry) → LRU →
    List (String × List String) → Option PMD →
    Except String PMD × List (Option CacheEntry) × LRU ×
      List (String × List String)
  | [], results, c, calls, pmd =>
    (match pmd with
     | some p => .ok p
     | none => .error "TypeError: no batch ran", results, c, calls)
  | batch :: rest, results, c, calls, _ =>
    let t := tryProviders g o (batch.map (fun p => p.1))
    match t.1 with
    | .error e => (.error e, results, c, calls ++ t.2)
    | .ok r =>
      let w := writeBatchGo r batch 0 results c
      runBatchesGo g o rest w.1 w.2 (calls ++ t.2)
        (some ⟨r.provider, r.model, r.dim⟩)

/-- results.map(r => r.embedding): throws at the first still-undefined
slot, otherwise the per-position embeddings. -/
def collectEmbeddings : List (Option CacheEntry) → Except String (List (Option Vec))
  | [] => .ok []
  | none :: _ => .error "TypeError: reading embedding of undefined"
  | some e :: rest =>
    match collectEmbeddings rest with
    | .error er => .error er
    | .ok tl => .ok (e.embedding :: tl)

/-- The { embeddings, dim, provider, model } result of embedTexts. -/
structure EmbedResult where
  embeddings : List (Option Vec)
  dim : Nat
  provider : String
  model : String
deriving DecidableEq

def undefinedDimErr : String := "TypeError: reading dim of undefined"

/-- embedTexts from src/embed.js: scan the cache, short-circuit when all
inputs hit (reading dim of results[0], a TypeError on an empty input),
else embed the uncached subset in batches of 10 with fallback, write
back, and reassemble.  Returns the result, the final cache, and the
provider invocations made (the inter-batch delay is timing only and is
not modelled). -/
def embedTexts (g : Nat → List String → Except String (List Vec))
    (o : Nat → List String → Except String (List (Nat × Vec)))
    (c : LRU) (texts : List String) :
    Except String EmbedResult × LRU × List (String × List String) :=
  let s := scanCacheGo c texts 0
  let c1 := s.1
  let results := s.2.1
  let uncached := s.2.2
  if uncached.isEmpty then
    match collectEmbeddings results with
    | .error e => (.error e, c1, [])
    | .ok embs =>
      match results with
      | some r0 :: _ => (.ok ⟨embs, r0.dim, r0.provider, r0.model⟩, c1, [])
      | _ => (.error undefinedDimErr, c1, [])
  else
    let out := runBatchesGo g o (splitEvery BATCH_SIZE uncached) results c1 [] none
    match out.1 with
    | .error e => (.error e, out.2.2.1, out.2.2.2)
    | .ok pmd =>
      match collectEmbeddings out.2.1 with
      | .error e => (.error e, out.2.2.1, out.2.2.2)
      | .ok embs =>
        (.ok ⟨embs, pmd.dim, pmd.provider, pmd.model⟩, out.2.2.1, out.2.2.2)

/- ===================== URL normalizer (src/normalize.js) ===================== -/

def TRACKING_PARAMS : List (List Char) :=
  [String.data "utm_source", String.data "utm_medium",
   String.data "utm_campaign", String.data "utm_term",
   String.data "utm_content", String.data "fbclid", String.data "igshid",
   String.data "ref", String.data "s", String.data "t"]

/-- Upper-case hex digit (the urlencoded serializer uses upper case). -/
def hexDigitChar (n : Nat) : Char :=
  if n < 10 then Char.ofNat (48 + n) else Char.ofNat (55 + n)

def hexVal (c : Char) : Option Nat :=
  if '0' ≤ c ∧ c ≤ '9' then some (c.toNat - 48)
  else if 'A' ≤ c ∧ c ≤ 'F' then some (c.toNat - 55)
  else if 'a' ≤ c ∧ c ≤ 'f' then some (c.toNat - 87)
  else none

/-- The chars the application/x-www-form-urlencoded serializer leaves
as-is. -/
def urlUnreserved (c : Char) : Bool :=
  c.isAlphanum || c == '*' || c == '-' || c == '.' || c == '_'

/-- The urlencoded serializer used by URLSearchParams when the url is
re-serialized: unreserved chars kept, space becomes plus, other ASCII
percent-encoded.  (Non-ASCII would be UTF-8 percent-encoded by the
platform; the model keeps such chars as-is, which round-trips the same
way.) -/
def encodeQ : List Char → List Char
  | [] => []
  | c :: rest =>
    if urlUnreserved c then c :: encodeQ rest
    else if c == ' ' then '+' :: encodeQ rest
    else if c.toNat < 128 then
      '%' :: hexDigitChar (c.toNat / 16) :: hexDigitChar (c.toNat % 16) ::
        encodeQ rest
    else c :: encodeQ rest

/-- The urlencoded parser decoding: plus to space, valid ASCII percent
escapes decoded, anything else literal.  (Multi-byte UTF-8 escapes are
kept literal; the serializer above never produces them.) -/
def decodeQ : List Char → List Char
  | [] => []
  | '+' :: rest => ' ' :: decodeQ rest
  | '%' :: h1 :: h2 :: rest =>
    (match hexVal h1, hexVal h2 with
     | some a, some b =>
       if a * 16 + b < 128 then Char.ofNat (a * 16 + b) :: decodeQ rest
       else '%' :: decodeQ (h1 :: h2 :: rest)
     | _, _ => '%' :: decodeQ (h1 :: h2 :: rest))
  | '%' :: rest => '%' :: decodeQ rest
  | c :: rest => c :: decodeQ rest

/-- Split a query string on ampersands. -/
def splitOnAmp : List Char → List (List Char)
  | [] => [[]]
  | '&' :: rest => [] :: splitOnAmp rest
  | c :: rest =>
    match splitOnAmp rest with
    | [] => [[c]]
    | p :: ps => (c :: p) :: ps

/-- Split one pair at its first equals sign. -/
def splitFirstEq : List Char → List Char × List Char
  | [] => ([], [])
  | '=' :: rest => ([], rest)
  | c :: rest =>
    let r := splitFirstEq rest
    (c :: r.1, r.2)

/-- URLSearchParams parsing of a query string (without the question
mark): empty pieces dropped, names and values decoded. -/
def parseQuery (qs : List Char) : List (List Char × List Char) :=
  ((splitOnAmp qs).filter (fun p => !p.isEmpty)).map
    (fun p =>
      let r := splitFirstEq p
      (decodeQ r.1, decodeQ r.2))

def serializePair (p : List Char × List Char) : List Char :=
  encodeQ p.1 ++ '=' :: encodeQ p.2

/-- URLSearchParams serialization. -/
def serializeQuery : List (List Char × List Char) → List Char
  | [] => []
  | [p] => serializePair p
  | p :: rest => serializePair p ++ '&' :: serializeQuery rest

/-- The components of a parsed http(s) URL, in the shape normalizeUrl
manipulates: userinfo (empty when absent), hostname, port digits (empty
when absent, as for an explicit empty port, which new URL drops). -/
structure UrlParts where
  secure : Bool
  user : List Char
  host : List Char
  port : List Char
  path : List Char
  query : List (List Char × List Char)
  frag : List Char
deriving DecidableEq

def authChar (c : Char) : Bool := !(c == '/' || c == '?' || c == '#')

def pathChar (c : Char) : Bool := !(c == '?' || c == '#')

/-- An ASCII decimal digit, the only chars the url port accepts. -/
def isDigitC (c : Char) : Bool := decide (48 ≤ c.toNat) && decide (c.toNat ≤ 57)

/-- Numeric value of a digit run, for the 16-bit port bound check. -/
def portVal (p : List Char) : Nat :=
  p.foldl (fun n c => n * 10 + (c.toNat - 48)) 0

/-- The WHATWG URL parser at the granularity normalizeUrl uses: the
authority runs to the first slash, question mark or hash; everything up
to its last at-sign is the userinfo (kept verbatim); the rest splits at
the first colon into hostname and port; the hostname is lower-cased and
must be nonempty (new URL throws otherwise); the port must be digits
with value at most 65535 (new URL throws otherwise); the path defaults
to a single slash; query and fragment split off. -/
def parseAfterScheme (secure : Bool) (r : List Char) : Option UrlParts :=
  let auth := r.takeWhile authChar
  let rest := r.dropWhile authChar
  if auth.isEmpty then none
  else
    let rev := auth.reverse
    let hostport := (rev.takeWhile (fun c => !(c == '@'))).reverse
    let user :=
      match rev.dropWhile (fun c => !(c == '@')) with
      | _ :: ur => ur.reverse
      | [] => []
    let hostRaw := hostport.takeWhile (fun c => !(c == ':'))
    let portOk :=
      match hostport.dropWhile (fun c => !(c == ':')) with
      | [] => some []
      | _ :: p =>
        if p.all isDigitC && decide (portVal p ≤ 65535) then some p else none
    if hostRaw.isEmpty then none
    else
      match portOk with
      | none => none
      | some port =>
        let host := lowerL hostRaw
        let pathRaw := rest.takeWhile pathChar
        let path := if pathRaw.isEmpty then ['/'] else pathRaw
        let rest2 := rest.dropWhile pathChar
        match rest2 with
        | '?' :: t =>
          let qs := t.takeWhile (fun c => !(c == '#'))
          let frag :=
            match t.dropWhile (fun c => !(c == '#')) with
            | '#' :: f => f
            | _ => []
          some ⟨secure, user, host, port, path, parseQuery qs, frag⟩
        | '#' :: f => some ⟨secure, user, host, port, path, [], f⟩
        | _ => some ⟨secure, user, host, port, path, [], []⟩

def parseUrl (raw : List Char) : Option UrlParts :=
  match stripCI "https://" raw with
  | some r => parseAfterScheme true r
  | none =>
    match stripCI "http://" raw with
    | some r => parseAfterScheme false r
    | none => none

/-- hostname.replace of the leading "www." — the hostname setter ignores
an assignment that would make the host empty. -/
def stripWww (h : List Char) : List Char :=
  if (String.data "www.").isPrefixOf h then
    let r := h.drop 4
    if r.isEmpty then h else r
  else h

def twitterHost (h : List Char) : List Char :=
  if h = String.data "twitter.com" then String.data "x.com" else h

def isTracking (k : List Char) : Bool := TRACKING_PARAMS.contains k

/-- searchParams.sort comparison: by name, code-unit order; the sort is
stable. -/
def keyLe (a b : List Char × List Char) : Bool := decide (a.1 ≤ b.1)

/-- The mutations normalizeUrl performs on a parsed url: strip leading
www from the hostname, rewrite the twitter hostname, delete tracking
params, sort the remaining params, drop the fragment; userinfo and port
are untouched. -/
def transformUrl (u : UrlParts) : UrlParts :=
  ⟨u.secure, u.user, twitterHost (stripWww u.host), u.port, u.path,
    sortBy keyLe (u.query.filter (fun kv => !(isTracking kv.1))), []⟩

/-- The userinfo segment of url.toString(): absent when empty. -/
def userPart (user : List Char) : List Char :=
  if user.isEmpty then [] else user ++ ['@']

/-- The port segment of url.toString(): absent when empty. -/
def portPart (port : List Char) : List Char :=
  if port.isEmpty then [] else ':' :: port

/-- url.toString() of a transformed url. -/
def serializeUrl (u : UrlParts) : List Char :=
  (if u.secure then String.data "https://" else String.data "http://") ++
    userPart u.user ++ u.host ++ portPart u.port ++ u.path ++
    (match u.query with
     | [] => []
     | ps => '?' :: serializeQuery ps) ++
    (if u.frag.isEmpty then [] else '#' :: u.frag)

/-- normalizeUrl from src/normalize.js on char lists: non-http(s) and
unparsable inputs are returned unchanged; otherwise transform,
serialize, and strip one trailing slash unless the path is the root. -/
def normalizeUrlL (raw : List Char) : List Char :=
  if (stripScheme raw).isNone then raw
  else
    match parseUrl raw with
    | none => raw
    | some u =>
      let u1 := transformUrl u
      let out := serializeUrl u1
      if out.getLast? == some '/' && !(u1.path == ['/']) then out.dropLast
      else out

/-- normalizeUrl on Lean strings. -/
def normalizeUrl (raw : String) : String := String.mk (normalizeUrlL raw.data)

/- ===================== Validator (src/validate.js) ===================== -/

def ERROR_SIGNALS : List (List Char) :=
  [String.data "access denied", String.data "captcha",
   String.data "please enable javascript", String.data "cloudflare",
   String.data "404", String.data "sign in", String.data "blocked",
   String.data "rate limit"]

structure ValidationResult where
  valid : Bool
  reason : String
deriving DecidableEq

/-- String.prototype.includes: contiguous substring test. -/
def isSubstr (pat : List Char) : List Char → Bool
  | [] => pat.isEmpty
  | l@(_ :: rest) => pat.isPrefixOf l || isSubstr pat rest

/-- content.split of the blank-line separator \n\s*\n, done with one
left-to-right scan: after a newline we collect whitespace; a second
newline confirms a separator that extends through the last newline of
the whitespace run (the greedy \s* with the final \n backtracked). -/
def splitParasGo : List Char → List Char → Option (Bool × List Char) → List (List Char)
  | [], acc, none => [acc.reverse]
  | [], acc, some (bnd, buf) =>
    if bnd then [acc.reverse, buf.reverse] else [(buf ++ '\n' :: acc).reverse]
  | c :: rest, acc, none =>
    if c == '\n' then splitParasGo rest acc (some (false, []))
    else splitParasGo rest (c :: acc) none
  | c :: rest, acc, some (bnd, buf) =>
    if c == '\n' then splitParasGo rest acc (some (true, []))
    else if jsWs c then splitParasGo rest acc (some (bnd, c :: buf))
    else
      if bnd then acc.reverse :: splitParasGo rest (c :: buf) none
      else splitParasGo rest (c :: buf ++ '\n' :: acc) none

/-- Paragraphs: blank-line split, inner newlines to spaces, trimmed,
empties dropped. -/
def paragraphsOf (content : List Char) : List (List Char) :=
  ((splitParasGo content [] none).map
      (fun p => trimChars (p.map (fun c => if c == '\n' then ' ' else c)))).filter
    (fun p => !p.isEmpty)

/-- validateContent from src/validate.js.  The metadata argument is
reduced to the has_transcript flag, the only field read; reason strings
are abbreviated constants (the source interpolates values into them).
The 15 percent float threshold is compared exactly: longParas over
total < 3/20. -/
def validateContent (content : List Char) (sourceType : String)
    (hasTranscript : Bool) : ValidationResult :=
  if content.length < 20 then ⟨false, "Content too short (< 20 chars)"⟩
  else
    let minLength : Nat := if sourceType == "video" && hasTranscript then 200 else 500
    if sourceType != "tweet" && decide (content.length < minLength) then
      ⟨false, "Content too short for type"⟩
    else
      let proseFail :=
        if sourceType != "tweet" then
          let paragraphs := paragraphsOf content
          if 0 < paragraphs.length then
            decide (20 * (paragraphs.filter (fun p => 80 < p.length)).length <
              3 * paragraphs.length)
          else false
        else false
      if proseFail then ⟨false, "Low prose ratio"⟩
      else
        let lower := lowerL content
        if 2 ≤ (ERROR_SIGNALS.filter (fun s => isSubstr s lower)).length then
          ⟨false, "Looks like an error page"⟩
        else ⟨true, ""⟩

/-- truncateContent with the default 200k ceiling. -/
def truncateContent (content : List Char) : List Char :=
  if 200000 < content.length then content.take 200000 else content

/- ===================== Orchestrator (_ingest) ===================== -/

structure SourceRow where
  id : String
  url : List Char
  title : String
  sourceType : String
  rawContent : List Char
  contentHash : Option String
  metaBlob : String
  createdAt : String
deriving DecidableEq

structure ChunkRow where
  id : String
  sourceId : String
  chunkIndex : Nat
  content : List Char
  embedding : Option Vec
  dim : Nat
  provider : Option String
  model : Option String
  createdAt : String
deriving DecidableEq

/-- The durable store: the sources and chunks tables. -/
structure Db where
  sources : List SourceRow
  chunks : List ChunkRow
deriving DecidableEq

/-- What the extraction collaborator returns; metadata reduced to the
has_transcript flag plus an opaque blob that is stored verbatim. -/
structure ExtractResult where
  title : String
  content : List Char
  hasTranscript : Bool
  metaBlob : String
deriving DecidableEq

/-- The ambient effects of _ingest: the extraction collaborator, the
SHA-256 hash (kept abstract), the randomUUID supply and the clock. -/
structure IngestEnv where
  extract : List Char → String → Except String ExtractResult
  hash : List Char → String
  uuid : Nat → String
  now : String

inductive IngestOutcome where
  | duplicate_url (existingId : String)
  | invalid (reason : String)
  | duplicate_content (existingId : String)
  | okDone (sourceId : String) (chunkCount : Nat)
  | pending_transcript (sourceId : String)
deriving DecidableEq

/-- The transactional commit: one Source row and its Chunk rows appended
atomically, ids minted from the uuid supply at this step. -/
def commitRows (env : IngestEnv) (db : Db) (url : List Char) (title : String)
    (sourceType : String) (content : List Char) (contentHash : Option String)
    (metaBlob : String) (chunks : List (List Char))
    (embeddings : List (Option Vec)) (dim : Nat)
    (provider : Option String) (model : Option String) : Db × String :=
  let sourceId := env.uuid 0
  let srcRow : SourceRow :=
    ⟨sourceId, url, title, sourceType, content, contentHash, metaBlob, env.now⟩
  let chunkRows := chunks.enum.map (fun p =>
    (⟨env.uuid (p.1 + 1), sourceId, p.1, p.2, embeddings.getD p.1 none, dim,
      provider, model, env.now⟩ : ChunkRow))
  (⟨db.sources ++ [srcRow], db.chunks ++ chunkRows⟩, sourceId)

/-- _ingest from the orchestrator source: normalize, url-dedup, extract,
truncate, validate, content-hash-dedup, chunk, embed (only when chunks
exist), then the transactional commit.  Returns the store, the embedding
cache, and the outcome; a thrown error leaves the store untouched. -/
def ingestCore (env : IngestEnv)
    (g : Nat → List String → Except String (List Vec))
    (o : Nat → List String → Except String (List (Nat × Vec)))
    (cache : LRU) (db : Db) (rawUrl : List Char) :
    Db × LRU × Except String IngestOutcome :=
  let url := normalizeUrlL rawUrl
  let sourceType := detectSourceType url
  match db.sources.find? (fun s => s.url == url) with
  | some ex => (db, cache, .ok (.duplicate_url ex.id))
  | none =>
    match env.extract url sourceType with
    | .error e => (db, cache, .error e)
    | .ok er =>
      let content := truncateContent er.content
      let validation := validateContent content sourceType er.hasTranscript
      if !validation.valid && decide (0 < content.length) then
        (db, cache, .ok (.invalid validation.reason))
      else
        let contentHash : Option String :=
          if 0 < content.length then some (env.hash content) else none
        match (match contentHash with
               | some h =>
                 db.sources.find? (fun (s : SourceRow) => s.contentHash == some h)
               | none => none) with
        | some dup => (db, cache, .ok (.duplicate_content dup.id))
        | none =>
          let chunks := if 0 < content.length then chunkTextL content else []
          if chunks.isEmpty then
            let cm := commitRows env db url er.title sourceType content
              contentHash er.metaBlob chunks [] 0 none none
            (cm.1, cache,
              .ok (if 0 < content.length then .okDone cm.2 chunks.length
                else .pending_transcript cm.2))
          else
            match embedTexts g o cache (chunks.map (fun l => String.mk l)) with
            | (.error e, c2, _) => (db, c2, .error e)
            | (.ok r, c2, _) =>
              let cm := commitRows env db url er.title sourceType content
                contentHash er.metaBlob chunks r.embeddings r.dim
                (some r.provider) (some r.model)
              (cm.1, c2,
                .ok (if 0 < content.length then .okDone cm.2 chunks.length
                  else .pending_transcript cm.2))

/- ===================== C10 ===================== -/

/-- Claim C10 (confirmed): embedTexts on an empty text list does not
return an empty result; it throws (it reads the dim of the nonexistent
first results entry), making no provider call and leaving the cache
untouched.  And the orchestrator guards the call: with empty extracted
content the run commits a pending Source without consulting the
embedding oracles at all (the outcome is identical for any two oracle
pairs). -/
theorem embedTexts_empty_throws :
    (∀ g o c, embedTexts g o c [] = (.error undefinedDimErr, c, [])) ∧
    (∀ (env : IngestEnv) g1 o1 g2 o2 cache db rawUrl er,
      db.sources.find? (fun s => s.url == normalizeUrlL rawUrl) = none →
      env.extract (normalizeUrlL rawUrl)
          (detectSourceType (normalizeUrlL rawUrl)) = .ok er →
      er.content = [] →
      ingestCore env g1 o1 cache db rawUrl =
          ingestCore env g2 o2 cache db rawUrl ∧
        (ingestCore env g1 o1 cache db rawUrl).2.2 =
          .ok (.pending_transcript (env.uuid 0))) := by
  constructor
  · intro g o c
    rfl
  · intro env g1 o1 g2 o2 cache db rawUrl er h1 h2 h3
    have key : ∀ (g : Nat → List String → Except String (List Vec))
        (o : Nat → List String → Except String (List (Nat × Vec))),
        ingestCore env g o cache db rawUrl =
          ((commitRows env db (normalizeUrlL rawUrl) er.title
              (detectSourceType (normalizeUrlL rawUrl)) [] none er.metaBlob
              [] [] 0 none none).1, cache,
            .ok (.pending_transcript
              (commitRows env db (normalizeUrlL rawUrl) er.title
                (detectSourceType (normalizeUrlL rawUrl)) [] none er.metaBlob
                [] [] 0 none none).2)) := by
      intro g o
      obtain ⟨ti, co, ht, mb⟩ := er
      have h3c : co = [] := h3
      subst h3c
      rw [ingestCore, h1, h2]
      rfl
    refine ⟨(key g1 o1).trans (key g2 o2).symm, ?_⟩
    rw [key g1 o1]
    rfl

/-- Witness for the guarded-orchestrator part at concrete inputs. -/
theorem embedTexts_empty_throws_witness :
    ingestCore ⟨fun _ _ => .ok ⟨"T", [], false, ""⟩, fun _ => "h",
        fun _ => "u", "now"⟩
      (fun _ _ => .error "gdown") (fun _ _ => .error "odown")
      ⟨1000, []⟩ ⟨[], []⟩ (String.data "x") =
      ingestCore ⟨fun _ _ => .ok ⟨"T", [], false, ""⟩, fun _ => "h",
          fun _ => "u", "now"⟩
        (fun _ _ => .ok [[1]]) (fun _ _ => .ok [(0, [1])])
        ⟨1000, []⟩ ⟨[], []⟩ (String.data "x") := by
  exact (embedTexts_empty_throws.2 ⟨fun _ _ => .ok ⟨"T", [], false, ""⟩,
    fun _ => "h", fun _ => "u", "now"⟩
    (fun _ _ => .error "gdown") (fun _ _ => .error "odown")
    (fun _ _ => .ok [[1]]) (fun _ _ => .ok [(0, [1])])
    ⟨1000, []⟩ ⟨[], []⟩ (String.data "x") ⟨"T", [], false, ""⟩
    rfl rfl rfl).1

/- ===================== C1 ===================== -/

/-- Claim C1 (confirmed): when an ingestion run reaches the Embed step
(no duplicate url, extraction succeeded, validation passed, no duplicate
hash, chunks exist) and embedTexts throws, the error propagates and the
durable store is returned unchanged: zero new Source rows and zero new
Chunk rows, because the single transactional commit only runs after
embedding succeeds. -/
theorem ingest_embed_failure_atomic (env : IngestEnv) (g : Nat → List String → Except String (List Vec))
    (o : Nat → List String → Except String (List (Nat × Vec)))
    (cache : LRU) (db : Db) (rawUrl : List Char) (er : ExtractResult) (e : String)
    (h1 : db.sources.find? (fun s => s.url == normalizeUrlL rawUrl) = none)
    (h2 : env.extract (normalizeUrlL rawUrl)
      (detectSourceType (normalizeUrlL rawUrl)) = .ok er)
    (h0 : 0 < (truncateContent er.content).length)
    (h3 : (validateContent (truncateContent er.content)
      (detectSourceType (normalizeUrlL rawUrl)) er.hasTranscript).valid = true)
    (h4 : db.sources.find? (fun s =>
      s.contentHash == some (env.hash (truncateContent er.content))) = none)
    (h5 : (chunkTextL (truncateContent er.content)).isEmpty = false)
    (h6 : (embedTexts g o cache ((chunkTextL (truncateContent er.content)).map
      (fun l => String.mk l))).1 = .error e) :
    ingestCore env g o cache db rawUrl =
      (db, (embedTexts g o cache ((chunkTextL (truncateContent er.content)).map
        (fun l => String.mk l))).2.1, .error e) := by
  simp only [ingestCore, h1, h2]
  rw [if_neg (by simp [h3])]
  simp only [if_pos h0, h4]
  rw [if_neg (by simp [h5])]
  rcases hE : embedTexts g o cache
      ((chunkTextL (truncateContent er.content)).map (fun l => String.mk l))
    with ⟨r1, c2, tr⟩
  have hr1 : r1 = .error e := by rw [hE] at h6; exact h6
  subst hr1
  simp [hE]

/-- Witness for ingest_embed_failure_atomic: a tweet url with 25 chars
of content, both providers down; the store stays empty. -/
theorem ingest_embed_failure_atomic_witness :
    ingestCore ⟨fun _ _ => .ok ⟨"T", List.replicate 25 'a', false, ""⟩,
        fun _ => "h", fun _ => "u", "now"⟩
      (fun _ _ => .error "gdown") (fun _ _ => .error "odown")
      ⟨1000, []⟩ ⟨[], []⟩ (String.data "https://x.com/a/status/1") =
      (⟨[], []⟩, (embedTexts (fun _ _ => .error "gdown")
        (fun _ _ => .error "odown") ⟨1000, []⟩
        ((chunkTextL (truncateContent (List.replicate 25 'a'))).map
          (fun l => String.mk l))).2.1,
        .error (combineErr "gdown" "odown")) := by
  exact ingest_embed_failure_atomic
    ⟨fun _ _ => .ok ⟨"T", List.replicate 25 'a', false, ""⟩,
      fun _ => "h", fun _ => "u", "now"⟩
    (fun _ _ => .error "gdown") (fun _ _ => .error "odown")
    ⟨1000, []⟩ ⟨[], []⟩ (String.data "https://x.com/a/status/1")
    ⟨"T", List.replicate 25 'a', false, ""⟩ (combineErr "gdown" "odown")
    rfl rfl (by decide) (by decide) rfl (by decide) rfl

/- ===================== C3 ===================== -/

theorem retryModel_all_fail {α : Type} (fn : Nat → Except String α) (e : String)
    (h : ∀ i, fn i = .error e) : retryModel fn = .error e := by
  simp [retryModel, retryGo, h 0, h 1, h 2]

/-- Claim C3 (confirmed): for a batch on which the primary provider
fails at every retry attempt, the batch loop falls back to the secondary
with the identical batch (visible in the call trace); when the secondary
also fails at every attempt, the loop and the whole embedTexts call fail
with the combined two-provider error, returning no results (the Except
error carries nothing), and the trace shows exactly the two provider
invocations with the same batch.  The loop-level statement quantifies
over every loop state, hence over every batch position. -/
theorem embed_fallback_combined_error
    (g : Nat → List String → Except String (List Vec))
    (o : Nat → List String → Except String (List (Nat × Vec)))
    (batch : List (String × Nat)) (eG eO : String)
    (hg : ∀ i, g i ((batch.map (fun p => p.1)).map truncMax) = .error eG)
    (ho : ∀ i, o i ((batch.map (fun p => p.1)).map truncMax) = .error eO) :
    (∀ rest results c calls pmd,
      runBatchesGo g o (batch :: rest) results c calls pmd =
        (.error (combineErr eG eO), results, c,
          calls ++ [("gemini", batch.map (fun p => p.1)),
            ("openai", batch.map (fun p => p.1))])) ∧
    (∀ cache texts rest,
      splitEvery BATCH_SIZE (scanCacheGo cache texts 0).2.2 = batch :: rest →
      (embedTexts g o cache texts).1 = .error (combineErr eG eO) ∧
        (embedTexts g o cache texts).2.2 =
          [("gemini", batch.map (fun p => p.1)),
            ("openai", batch.map (fun p => p.1))]) := by
  have hgem : embedGeminiM g (batch.map (fun p => p.1)) = .error eG := by
    rw [embedGeminiM, retryModel_all_fail _ eG hg]
  have hoai : embedOpenAIM o (batch.map (fun p => p.1)) = .error eO := by
    rw [embedOpenAIM, retryModel_all_fail _ eO ho]
  have htry : tryProviders g o (batch.map (fun p => p.1)) =
      (.error (combineErr eG eO),
        [("gemini", batch.map (fun p => p.1)),
          ("openai", batch.map (fun p => p.1))]) := by
    rw [tryProviders, hgem, hoai]
  have hloop : ∀ rest results c calls pmd,
      runBatchesGo g o (batch :: rest) results c calls pmd =
        (.error (combineErr eG eO), results, c,
          calls ++ [("gemini", batch.map (fun p => p.1)),
            ("openai", batch.map (fun p => p.1))]) := by
    intro rest results c calls pmd
    rw [runBatchesGo, htry]
  refine ⟨hloop, ?_⟩
  intro cache texts rest hsplit
  have hne : ((scanCacheGo cache texts 0).2.2).isEmpty = false := by
    rcases hu : (scanCacheGo cache texts 0).2.2 with _ | ⟨p, ps⟩
    · rw [hu] at hsplit
      exact absurd hsplit (by simp [splitEvery, splitEveryGo])
    · rfl
  rw [embedTexts]
  simp only [hne, Bool.false_eq_true, if_false, hsplit, hloop]
  exact ⟨trivial, rfl⟩

/-- Witness for embed_fallback_combined_error at a concrete batch. -/
theorem embed_fallback_combined_error_witness :
    (embedTexts (fun _ _ => .error "gdown") (fun _ _ => .error "odown")
        ⟨1000, []⟩ ["t"]).1 = .error (combineErr "gdown" "odown") := by
  exact ((embed_fallback_combined_error (fun _ _ => .error "gdown")
    (fun _ _ => .error "odown") [("t", 0)] "gdown" "odown"
    (fun _ => rfl) (fun _ => rfl)).2 ⟨1000, []⟩ ["t"] [] (by decide)).1

/- ===================== C5 lemmas ===================== -/

theorem LRU.get_of_lookup_none (c : LRU) (t : String)
    (h : c.lookup t = none) : c.get t = (none, c) := by
  rw [LRU.lookup] at h
  rw [LRU.get]
  rcases hf : c.entries.find? (fun e => e.1 == t) with _ | kv
  · simp only [hf]
  · rw [hf] at h
    simp at h

theorem scanCacheGo_all_miss (texts : List String) :
    ∀ (c : LRU) (i : Nat), (∀ t ∈ texts, c.lookup t = none) →
      scanCacheGo c texts i =
        (c, texts.map (fun _ => (none : Option CacheEntry)),
          (texts.enumFrom i).map (fun p => (p.2, p.1))) := by
  induction texts with
  | nil => intro c i _; rfl
  | cons t rest ih =>
    intro c i h
    have hget : c.get t = (none, c) :=
      LRU.get_of_lookup_none c t (h t (by simp))
    rw [scanCacheGo]
    simp only [hget, ih c (i + 1) (fun u hu => h u (by simp [hu])),
      List.enumFrom_cons, List.map_cons]

theorem splitEveryGo_single {α : Type} (n : Nat) (l : List α) :
    ∀ cur : List α, 1 ≤ cur.length + l.length → cur.length + l.length ≤ n →
      splitEveryGo n l cur = [cur.reverse ++ l] := by
  induction l with
  | nil =>
    intro cur h1 _
    rw [splitEveryGo]
    have : cur.isEmpty = false := by
      cases cur with
      | nil => simp at h1
      | cons a b => rfl
    simp [this]
  | cons x xs ih =>
    intro cur h1 h2
    rw [splitEveryGo]
    by_cases hfull : n ≤ cur.length + 1
    · have hxs : xs = [] := by
        cases xs with
        | nil => rfl
        | cons y ys => simp [List.length_cons] at h2; omega
      subst hxs
      rw [if_pos hfull]
      rw [splitEveryGo]
      simp
    · rw [if_neg hfull]
      rw [ih (x :: cur) (by simp; omega) (by simp at h2 ⊢; omega)]
      simp

theorem set_append_len {α : Type} (pre : List α) (x v : α) (l : List α) :
    (pre ++ x :: l).set pre.length v = pre ++ v :: l := by
  induction pre with
  | nil => rfl
  | cons a as ih => simp [List.set_cons_succ, ih]

theorem writeBatchGo_aligned (r : ProviderSuccess) (ts : List String) :
    ∀ (j : Nat) (pre : List (Option CacheEntry)) (c : LRU),
      pre.length = j →
      (writeBatchGo r ((ts.enumFrom j).map (fun p => (p.2, p.1))) j
          (pre ++ List.replicate ts.length none) c).1 =
        pre ++ (ts.enumFrom j).map (fun p =>
          some ⟨r.embeddings.get? p.1, r.dim, r.provider, r.model⟩) := by
  induction ts with
  | nil =>
    intro j pre c _
    simp [writeBatchGo]
  | cons t rest ih =>
    intro j pre c hlen
    rw [List.enumFrom_cons]
    simp only [List.map_cons, List.replicate, writeBatchGo]
    have hset : (pre ++ none :: List.replicate rest.length none).set j
        (some ⟨r.embeddings.get? j, r.dim, r.provider, r.model⟩) =
        pre ++ some ⟨r.embeddings.get? j, r.dim, r.provider, r.model⟩ ::
          List.replicate rest.length none := by
      rw [← hlen]
      exact set_append_len pre none _ (List.replicate rest.length none)
    rw [hset]
    have hre : pre ++ some ⟨r.embeddings.get? j, r.dim, r.provider, r.model⟩ ::
        List.replicate rest.length none =
        (pre ++ [some ⟨r.embeddings.get? j, r.dim, r.provider, r.model⟩]) ++
          List.replicate rest.length none := by simp
    rw [hre, ih (j + 1) _ _ (by simp [hlen])]
    simp

theorem collectEmbeddings_map_some {α : Type} (xs : List α) (f : α → CacheEntry) :
    collectEmbeddings (xs.map (fun x => some (f x))) =
      .ok (xs.map (fun x => (f x).embedding)) := by
  induction xs with
  | nil => rfl
  | cons x rest ih =>
    simp only [List.map_cons, collectEmbeddings, ih]

theorem batch_texts_of_enum (ts : List String) (j : Nat) :
    ((ts.enumFrom j).map (fun p => (p.2, p.1))).map (fun p => p.1) = ts := by
  rw [List.map_map]
  exact List.enumFrom_map_snd j ts

/-- Claim C5 (amended): on a call in which no input is served from the
cache and all inputs fit in one provider batch, when the provider batch
succeeds with one vector per input and uniform vector lengths, the
returned result carries that single provider, model and dim, and every
returned vector is present with length equal to the returned dim.  (In
general the claim fails when cache hits populated by a different
provider mix with fresh vectors, see the counterexample.) -/
theorem embed_single_batch_uniform
    (g : Nat → List String → Except String (List Vec))
    (o : Nat → List String → Except String (List (Nat × Vec)))
    (c : LRU) (texts : List String) (r : ProviderSuccess)
    (hmiss : ∀ t ∈ texts, c.lookup t = none)
    (hne : texts ≠ [])
    (hlen : texts.length ≤ BATCH_SIZE)
    (hp : (tryProviders g o texts).1 = .ok r)
    (huni : ∀ v ∈ r.embeddings, v.length = r.dim)
    (hcnt : r.embeddings.length = texts.length) :
    ∃ embs, (embedTexts g o c texts).1 = .ok ⟨embs, r.dim, r.provider, r.model⟩ ∧
      embs.length = texts.length ∧
      ∀ v ∈ embs, ∃ w, v = some w ∧ w.length = r.dim := by
  have hscan := scanCacheGo_all_miss texts c 0 hmiss
  have huncne : ((texts.enumFrom 0).map (fun p => (p.2, p.1))) ≠ [] := by
    cases texts with
    | nil => exact absurd rfl hne
    | cons a b => simp [List.enumFrom_cons]
  have hsplit : splitEvery BATCH_SIZE
      ((texts.enumFrom 0).map (fun p => (p.2, p.1))) =
      [(texts.enumFrom 0).map (fun p => (p.2, p.1))] := by
    rw [splitEvery]
    rw [splitEveryGo_single BATCH_SIZE _ []
      (by
        simp only [List.length_nil, Nat.zero_add, List.length_map,
          List.enumFrom_length]
        cases texts with
        | nil => exact absurd rfl hne
        | cons a b => simp)
      (by simpa [List.enumFrom_length] using hlen)]
    simp
  rcases ht : tryProviders g o texts with ⟨tr1, tcalls⟩
  have htr1 : tr1 = .ok r := by rw [ht] at hp; exact hp
  subst htr1
  have hune2 : (((texts.enumFrom 0).map (fun p => (p.2, p.1))).isEmpty) = false := by
    cases hlst : (texts.enumFrom 0).map (fun p => (p.2, p.1)) with
    | nil => exact absurd hlst huncne
    | cons a b => rfl
  have hmapnone : texts.map (fun _ => (none : Option CacheEntry)) =
      [] ++ List.replicate texts.length none := by
    simp [List.map_const']
  rw [embedTexts]
  simp only [hscan, hune2, Bool.false_eq_true, if_false, hsplit, runBatchesGo,
    batch_texts_of_enum, ht]
  rw [hmapnone, writeBatchGo_aligned r texts 0 [] c rfl]
  simp only [runBatchesGo, List.nil_append]
  rw [collectEmbeddings_map_some]
  refine ⟨_, rfl, ?_, ?_⟩
  · simp [List.enumFrom_length]
  · intro v hv
    rcases List.mem_map.1 hv with ⟨p, hpmem, hpv⟩
    obtain ⟨i, x⟩ := p
    have hb := List.mem_enumFrom hpmem
    have hi : i < r.embeddings.length := by
      rw [hcnt]
      simpa using hb.2.1
    rcases hg : r.embeddings.get? i with _ | w
    · rw [List.get?_eq_none] at hg
      omega
    · refine ⟨w, ?_, huni w (List.get?_mem hg)⟩
      rw [← hpv]
      show r.embeddings.get? i = some w
      exact hg

/-- Witness for embed_single_batch_uniform: two fresh texts, one
successful primary batch. -/
theorem embed_single_batch_uniform_witness :
    ∃ embs, (embedTexts (fun _ _ => .ok [[1, 2], [3, 4]])
        (fun _ _ => .error "odown") ⟨1000, []⟩ ["a", "b"]).1 =
        .ok ⟨embs, 2, "google", "text-embedding-004"⟩ ∧
      embs.length = 2 ∧ ∀ v ∈ embs, ∃ w, v = some w ∧ w.length = 2 := by
  exact embed_single_batch_uniform (fun _ _ => .ok [[1, 2], [3, 4]])
    (fun _ _ => .error "odown") ⟨1000, []⟩ ["a", "b"]
    ⟨[[1, 2], [3, 4]], 2, "google", "text-embedding-004"⟩
    (by intro t _; rfl) (by decide) (by decide) rfl (by decide) rfl

/-- Counterexample to claim C5 as stated: call one embeds t1 via the
primary (dim 2), call two embeds t2 via the fallback (dim 3), call three
is all cache hits and returns a result declaring provider google and
dim 2 whose second vector has length 3 — the vectors of one successful
call do not share one provider/model/dim. -/
theorem embed_mixed_provider_counterexample :
    (embedTexts (fun _ _ => .ok [[1, 2]]) (fun _ _ => .error "unused")
        (embedTexts (fun _ _ => .error "gdown") (fun _ _ => .ok [(0, [1, 2, 3])])
          (embedTexts (fun _ _ => .ok [[1, 2]]) (fun _ _ => .error "unused")
            ⟨1000, []⟩ ["t1"]).2.1 ["t2"]).2.1 ["t1", "t2"]).1 =
      .ok ⟨[some [1, 2], some [1, 2, 3]], 2, "google", "text-embedding-004"⟩ ∧
    ¬ (∀ v ∈ [some ([1, 2] : Vec), some ([1, 2, 3] : Vec)],
        ∀ w, v = some w → w.length = 2) := by
  constructor
  · rfl
  · intro h
    have := h (some [1, 2, 3]) (by simp) [1, 2, 3] rfl
    simp at this

/- ===================== C4: LRU cache lemmas ===================== -/

/-- Well-formed cache: distinct keys (a JS Map invariant). -/
def LRU.wf (c : LRU) : Prop := (c.entries.map Prod.fst).Nodup

theorem find?_eraseP_of_disjoint {α : Type} (p q : α → Bool) (l : List α)
    (h : ∀ e ∈ l, ¬(p e = true ∧ q e = true)) :
    (l.eraseP q).find? p = l.find? p := by
  induction l with
  | nil => rfl
  | cons e l ih =>
    by_cases hq : q e
    · rw [List.eraseP_cons_of_pos hq]
      have hp : p e = false := by
        rcases hp : p e with _ | _
        · rfl
        · exact absurd ⟨hp, hq⟩ (h e (by simp))
      rw [List.find?_cons, hp]
    · rw [List.eraseP_cons_of_neg (by simp [hq]), List.find?_cons,
        List.find?_cons]
      rcases hp : p e with _ | _
      · simp only [cond_false]
        exact ih (fun x hx => h x (by simp [hx]))
      · rfl

theorem map_fst_eraseP_key (t : String) (l : List (String × CacheEntry)) :
    (l.eraseP (fun e => e.1 == t)).map Prod.fst = (l.map Prod.fst).erase t := by
  induction l with
  | nil => rfl
  | cons e l ih =>
    by_cases he : e.1 = t
    · rw [List.eraseP_cons_of_pos (by simp [he])]
      rw [List.map_cons, he, List.erase_cons_head]
    · rw [List.eraseP_cons_of_neg (by simp [he])]
      rw [List.map_cons, List.map_cons, List.erase_cons_tail (by simp [he]), ih]

theorem find?_key_eraseP_self (t : String) (l : List (String × CacheEntry))
    (hwf : (l.map Prod.fst).Nodup) :
    (l.eraseP (fun e => e.1 == t)).find? (fun e => e.1 == t) = none := by
  rw [List.find?_eq_none]
  intro x hx
  have hx2 : x.1 ∈ (l.map Prod.fst).erase t := by
    rw [← map_fst_eraseP_key]
    exact List.mem_map_of_mem Prod.fst hx
  intro hbeq
  have hxt : x.1 = t := by simpa using hbeq
  rw [hxt] at hx2
  exact absurd (hwf.mem_erase_iff.1 hx2).1 (by simp)

theorem find?_key_of_ne {k t : String} (hne : k ≠ t)
    (l : List (String × CacheEntry)) :
    (l.eraseP (fun e => e.1 == t)).find? (fun e => e.1 == k) =
      l.find? (fun e => e.1 == k) := by
  apply find?_eraseP_of_disjoint
  rintro e _ ⟨h1, h2⟩
  exact hne (by rw [← show e.1 = k by simpa using h1, show e.1 = t by simpa using h2])

theorem wf_eraseP_append (t : String) (v : CacheEntry)
    (l : List (String × CacheEntry)) (hwf : (l.map Prod.fst).Nodup) :
    (((l.eraseP (fun e => e.1 == t)) ++ [(t, v)]).map Prod.fst).Nodup := by
  rw [List.map_append, map_fst_eraseP_key]
  rw [List.nodup_append]
  refine ⟨hwf.erase t, by simp, ?_⟩
  intro x hx
  have := (hwf.mem_erase_iff.1 hx).1
  simp [this]

theorem LRU.get_props (c : LRU) (t : String) (hwf : c.wf) :
    (c.get t).1 = c.lookup t ∧
      (∀ k, ((c.get t).2).lookup k = c.lookup k) ∧
      ((c.get t).2).entries.length = c.entries.length ∧
      ((c.get t).2).max = c.max ∧ ((c.get t).2).wf := by
  rcases hf : c.entries.find? (fun e => e.1 == t) with _ | kv
  · have hget : c.get t = (none, c) := by
      rw [LRU.get]; simp only [hf]
    rw [hget]
    refine ⟨?_, fun k => rfl, rfl, rfl, hwf⟩
    rw [LRU.lookup, hf]
    rfl
  · have hkey : kv.1 = t := by simpa using List.find?_some hf
    have hmem : kv ∈ c.entries := List.mem_of_find?_eq_some hf
    have hget : c.get t =
        (some kv.2, ⟨c.max, (c.entries.eraseP (fun e => e.1 == t)) ++ [kv]⟩) := by
      rw [LRU.get]; simp only [hf]
    rw [hget]
    have hfind1 : ([kv].find? (fun e => e.1 == t)) = some kv := by
      rw [List.find?_cons]; simp [hkey]
    refine ⟨?_, ?_, ?_, rfl, ?_⟩
    · rw [LRU.lookup, hf]
      rfl
    · intro k
      show ((c.entries.eraseP (fun e => e.1 == t) ++ [kv]).find?
        (fun e => e.1 == k)).map (fun e => e.2) = c.lookup k
      rw [List.find?_append]
      by_cases hk : k = t
      · subst hk
        rw [find?_key_eraseP_self k c.entries hwf, Option.none_or, hfind1,
          LRU.lookup, hf]
      · rw [find?_key_of_ne hk, LRU.lookup]
        rcases hfk : c.entries.find? (fun e => e.1 == k) with _ | kv2
        · rw [hfk, Option.none_or]
          have h2 : ([kv].find? (fun e => e.1 == k)) = none := by
            rw [List.find?_eq_none]
            intro x hx
            have hxkv : x = kv := by simpa using hx
            subst hxkv
            simp [hkey, Ne.symm hk]
          rw [h2]
        · rw [hfk]
          rfl
    · show (c.entries.eraseP (fun e => e.1 == t) ++ [kv]).length =
        c.entries.length
      rw [List.length_append,
        List.length_eraseP_of_mem hmem (by simp [hkey])]
      have hpos : 0 < c.entries.length := List.length_pos_of_mem hmem
      simp only [List.length_cons, List.length_nil]
      omega
    · show ((c.entries.eraseP (fun e => e.1 == t) ++ [kv]).map Prod.fst).Nodup
      have hkv : kv = (t, kv.2) := by
        cases kv with
        | mk a b => simp only at hkey ⊢; rw [hkey]
      rw [hkv]
      exact wf_eraseP_append t kv.2 c.entries hwf

theorem LRU.set_props (c : LRU) (t : String) (v : CacheEntry) (hwf : c.wf)
    (hroom : c.entries.length < c.max) :
    (∀ k, (c.set t v).lookup k = if k = t then some v else c.lookup k) ∧
      (c.set t v).entries.length ≤ c.entries.length + 1 ∧
      (c.set t v).max = c.max ∧ (c.set t v).wf := by
  have hfind1 : ∀ k, k ≠ t → ([((t, v) : String × CacheEntry)].find?
      (fun e => e.1 == k)) = none := by
    intro k hk
    rw [List.find?_eq_none]
    intro x hx
    have hxv : x = (t, v) := by simpa using hx
    subst hxv
    simp [Ne.symm hk]
  have hfindt : ([((t, v) : String × CacheEntry)].find?
      (fun e => e.1 == t)) = some (t, v) := by
    rw [List.find?_cons]; simp
  by_cases hhas : c.entries.any (fun e => e.1 == t)
  · have hset : c.set t v =
        ⟨c.max, (c.entries.eraseP (fun e => e.1 == t)) ++ [(t, v)]⟩ := by
      rw [LRU.set, if_pos hhas]
    rw [hset]
    refine ⟨?_, ?_, rfl, wf_eraseP_append t v c.entries hwf⟩
    · intro k
      show ((c.entries.eraseP (fun e => e.1 == t) ++ [(t, v)]).find?
        (fun e => e.1 == k)).map (fun e => e.2) = _
      rw [List.find?_append]
      by_cases hk : k = t
      · subst hk
        rw [find?_key_eraseP_self k c.entries hwf, Option.none_or, hfindt,
          if_pos rfl]
        rfl
      · rw [find?_key_of_ne hk, if_neg hk]
        rcases hfk : c.entries.find? (fun e => e.1 == k) with _ | kv2
        · rw [hfk, Option.none_or, hfind1 k hk, LRU.lookup, hfk]
        · rw [hfk, LRU.lookup, hfk]
          rfl
    · show (c.entries.eraseP (fun e => e.1 == t) ++ [(t, v)]).length ≤ _
      rw [List.length_append]
      have hle : (c.entries.eraseP (fun e => e.1 == t)).length ≤
          c.entries.length := List.length_eraseP_le _
      simp only [List.length_cons, List.length_nil]
      omega
  · have hset : c.set t v = ⟨c.max, c.entries ++ [(t, v)]⟩ := by
      rw [LRU.set, if_neg hhas, if_neg (by omega)]
    have habs : c.entries.find? (fun e => e.1 == t) = none := by
      rw [List.find?_eq_none]
      intro x hx hbeq
      exact hhas (List.any_eq_true.2 ⟨x, hx, hbeq⟩)
    rw [hset]
    refine ⟨?_, by rw [List.length_append]; rfl, rfl, ?_⟩
    · intro k
      show ((c.entries ++ [(t, v)]).find? (fun e => e.1 == k)).map
        (fun e => e.2) = _
      rw [List.find?_append]
      by_cases hk : k = t
      · subst hk
        rw [habs, Option.none_or, hfindt, if_pos rfl]
        rfl
      · rw [if_neg hk]
        rcases hfk : c.entries.find? (fun e => e.1 == k) with _ | kv2
        · rw [hfk, Option.none_or, hfind1 k hk, LRU.lookup, hfk]
        · rw [hfk, LRU.lookup, hfk]
          rfl
    · show ((c.entries ++ [(t, v)]).map Prod.fst).Nodup
      rw [List.map_append, List.nodup_append]
      refine ⟨hwf, by simp, ?_⟩
      intro x hx
      rcases List.mem_map.1 hx with ⟨e, he, hex⟩
      simp only [List.map_cons, List.map_nil, List.mem_singleton]
      intro hxt
      apply hhas
      exact List.any_eq_true.2 ⟨e, he, by simp [hex, hxt]⟩

/- ===================== C4: scan and fill machinery ===================== -/

/-- The uncached subset of the input, per the spec wording: the texts
that miss the cache, in input order. -/
def missesOf (c : LRU) (texts : List String) : List String :=
  texts.filter (fun t => (c.lookup t).isNone)

/-- The positions of the cache misses in the scanned results list. -/
def nonePos : List (Option CacheEntry) → Nat → List Nat
  | [], _ => []
  | some _ :: rest, i => nonePos rest (i + 1)
  | none :: rest, i => i :: nonePos rest (i + 1)

/-- Fill the none slots of a scanned results list with fresh entries, in
order; slots beyond the supply stay none. -/
def fillNones : List (Option CacheEntry) → List (Option CacheEntry) →
    List (Option CacheEntry)
  | [], _ => []
  | some e :: rest, fresh => some e :: fillNones rest fresh
  | none :: rest, fresh => fresh.headD none :: fillNones rest fresh.tail

theorem scanCacheGo_spec (texts : List String) :
    ∀ (c : LRU) (i : Nat), c.wf →
      (scanCacheGo c texts i).2.1 = texts.map (fun t => c.lookup t) ∧
      (scanCacheGo c texts i).2.2 =
        ((texts.enumFrom i).filter
          (fun p => (c.lookup p.2).isNone)).map (fun p => (p.2, p.1)) ∧
      (∀ k, (scanCacheGo c texts i).1.lookup k = c.lookup k) ∧
      (scanCacheGo c texts i).1.entries.length = c.entries.length ∧
      (scanCacheGo c texts i).1.max = c.max ∧
      (scanCacheGo c texts i).1.wf := by
  induction texts with
  | nil => intro c i hwf; exact ⟨rfl, rfl, fun k => rfl, rfl, rfl, hwf⟩
  | cons t rest ih =>
    intro c i hwf
    obtain ⟨hg1, hg2, hg3, hg4, hg5⟩ := LRU.get_props c t hwf
    obtain ⟨ih1, ih2, ih3, ih4, ih5, ih6⟩ := ih (c.get t).2 (i + 1) hg5
    have hres : ((c.get t).2).lookup = c.lookup := funext hg2
    rw [scanCacheGo]
    simp only [hg1]
    rcases hl : c.lookup t with _ | e
    · -- miss
      refine ⟨?_, ?_, ?_, ?_, ?_, ih6⟩
      · simp only [List.map_cons, hl, ih1, hres]
      · simp only [ih2, hres, List.enumFrom_cons, List.filter_cons, hl]
        simp
      · intro k
        rw [ih3 k, hg2 k]
      · rw [ih4, hg3]
      · rw [ih5, hg4]
    · -- hit
      refine ⟨?_, ?_, ?_, ?_, ?_, ih6⟩
      · simp only [List.map_cons, hl, ih1, hres]
      · simp only [ih2, hres, List.enumFrom_cons, List.filter_cons, hl]
        simp
      · intro k
        rw [ih3 k, hg2 k]
      · rw [ih4, hg3]
      · rw [ih5, hg4]

theorem nonePos_shift (R : List (Option CacheEntry)) :
    ∀ i, nonePos R (i + 1) = (nonePos R i).map (fun x => x + 1) := by
  induction R with
  | nil => intro i; rfl
  | cons x rest ih =>
    intro i
    cases x with
    | some e => simp only [nonePos, ih (i + 1)]
    | none => simp only [nonePos, ih (i + 1), List.map_cons]

/-- The second components of the uncached list are the none positions of
the scanned results. -/
theorem uncached_snd_eq_nonePos (c : LRU) (texts : List String) :
    ∀ i, (((texts.enumFrom i).filter (fun p => (c.lookup p.2).isNone)).map
        (fun p => (p.2, p.1))).map (fun q => q.2) =
      nonePos (texts.map (fun t => c.lookup t)) i := by
  induction texts with
  | nil => intro i; rfl
  | cons t rest ih =>
    intro i
    rw [List.enumFrom_cons, List.filter_cons]
    rcases hl : c.lookup t with _ | e
    · rw [if_pos (by simp [hl])]
      simp [nonePos, hl, ih (i + 1)]
    · rw [if_neg (by simp [hl])]
      simp [nonePos, hl, ih (i + 1)]

/-- The first components of the uncached list are the spec-level misses. -/
theorem uncached_fst_eq_misses (c : LRU) (texts : List String) :
    ∀ i, (((texts.enumFrom i).filter (fun p => (c.lookup p.2).isNone)).map
        (fun p => (p.2, p.1))).map (fun q => q.1) = missesOf c texts := by
  induction texts with
  | nil => intro i; rfl
  | cons t rest ih =>
    intro i
    rw [List.enumFrom_cons, List.filter_cons, missesOf, List.filter_cons]
    rcases hl : c.lookup t with _ | e
    · rw [if_pos (by simp [hl]), if_pos (by simp [hl])]
      have := ih (i + 1)
      rw [missesOf] at this
      simp [this]
    · rw [if_neg (by simp [hl]), if_neg (by simp [hl])]
      have := ih (i + 1)
      rw [missesOf] at this
      simp [this]

theorem fillNones_nil (R : List (Option CacheEntry)) : fillNones R [] = R := by
  induction R with
  | nil => rfl
  | cons x rest ih =>
    cases x with
    | some e => simp only [fillNones, ih]
    | none => simp only [fillNones, ih, List.headD_nil, List.tail_nil]

theorem fillNones_length (R : List (Option CacheEntry)) :
    ∀ F, (fillNones R F).length = R.length := by
  induction R with
  | nil => intro F; rfl
  | cons x rest ih =>
    intro F
    cases x with
    | some e => simp only [fillNones, List.length_cons, ih]
    | none => simp only [fillNones, List.length_cons, ih]

/-- Writing at the m-th none position extends the fill supply by one. -/
theorem fillNones_set (R : List (Option CacheEntry)) :
    ∀ (F : List (Option CacheEntry)) (p : Nat) (e : Option CacheEntry),
      (nonePos R 0)[F.length]? = some p →
      (fillNones R F).set p e = fillNones R (F ++ [e]) := by
  induction R with
  | nil =>
    intro F p e hp
    simp [nonePos] at hp
  | cons x rest ih =>
    intro F p e hp
    cases x with
    | some y =>
      rw [nonePos, nonePos_shift] at hp
      rw [List.getElem?_map] at hp
      rcases hq : (nonePos rest 0)[F.length]? with _ | q
      · rw [hq] at hp; exact absurd hp (by simp)
      · rw [hq] at hp
        have hpq : p = q + 1 := by simpa using hp.symm
        subst hpq
        simp only [fillNones, List.set_cons_succ]
        rw [ih F q e hq]
    | none =>
      cases F with
      | nil =>
        simp only [nonePos, List.length_nil, List.getElem?_cons_zero,
          Option.some.injEq] at hp
        subst hp
        simp only [fillNones, List.headD_nil, List.tail_nil,
          List.set_cons_zero, List.nil_append, List.headD_cons, List.tail_cons]
      | cons f F2 =>
        simp only [nonePos, List.length_cons, List.getElem?_cons_succ] at hp
        rw [nonePos_shift, List.getElem?_map] at hp
        rcases hq : (nonePos rest 0)[F2.length]? with _ | q
        · rw [hq] at hp; exact absurd hp (by simp)
        · rw [hq] at hp
          have hpq : p = q + 1 := by simpa using hp.symm
          subst hpq
          simp only [fillNones, List.headD_cons, List.tail_cons,
            List.set_cons_succ, List.cons_append]
          rw [ih F2 q e hq]

/-- The entry the batch write-back mints for offset j of a provider
success. -/
def mkEntry (r : ProviderSuccess) (j : Nat) : CacheEntry :=
  ⟨r.embeddings.get? j, r.dim, r.provider, r.model⟩

/-- The entries the batch loop writes, batch by batch, in order. -/
def freshEntries (g : Nat → List String → Except String (List Vec))
    (o : Nat → List String → Except String (List (Nat × Vec)))
    (bts : List (List String)) : List (Option CacheEntry) :=
  (bts.map (fun bt =>
    match (tryProviders g o bt).1 with
    | .ok r => (List.range bt.length).map (fun m => some (mkEntry r m))
    | .error _ => [])).flatten

/-- Extract the embedding of each slot. -/
def embsOf (l : List (Option CacheEntry)) : List (Option Vec) :=
  l.map (fun x => x.bind (fun e => e.embedding))

/-- Modelled from the spec wording of claim C4: the output is
reassembled in original input order, each position taking its cached
vector on a hit and the next fresh provider vector on a miss. -/
def orderedMerge (c : LRU) : List String → List (Option Vec) → List (Option Vec)
  | [], _ => []
  | t :: ts, fresh =>
    match c.lookup t with
    | some e => e.embedding :: orderedMerge c ts fresh
    | none => fresh.headD none :: orderedMerge c ts fresh.tail

/-- Modelled from the spec wording of claim C4: the fresh vectors, per
miss in order, are the provider vectors of the batch covering the miss
at the offset of the miss within its batch. -/
def freshVecs (g : Nat → List String → Except String (List Vec))
    (o : Nat → List String → Except String (List (Nat × Vec)))
    (bts : List (List String)) : List (Option Vec) :=
  (bts.map (fun bt =>
    match (tryProviders g o bt).1 with
    | .ok r => (List.range bt.length).map (fun m => r.embeddings.get? m)
    | .error _ => [])).flatten

theorem tryProviders_calls (g : Nat → List String → Except String (List Vec))
    (o : Nat → List String → Except String (List (Nat × Vec)))
    (bt : List String) : ∀ cl ∈ (tryProviders g o bt).2, cl.2 = bt := by
  intro cl hcl
  rw [tryProviders] at hcl
  rcases h1 : embedGeminiM g bt with e1 | r1 <;> rw [h1] at hcl
  · rcases h2 : embedOpenAIM o bt with e2 | r2 <;> rw [h2] at hcl
    · simp at hcl
      rcases hcl with h | h <;> simp [h]
    · simp at hcl
      rcases hcl with h | h <;> simp [h]
  · simp at hcl
    simp [hcl]

theorem writeBatchGo_fill (r : ProviderSuccess) (R : List (Option CacheEntry))
    (b : List (String × Nat)) :
    ∀ (j : Nat) (F : List (Option CacheEntry)) (c : LRU),
      ((nonePos R 0).drop F.length =
        b.map (fun p => p.2) ++ (nonePos R 0).drop (F.length + b.length)) →
      (writeBatchGo r b j (fillNones R F) c).1 =
        fillNones R
          (F ++ (List.range b.length).map (fun m => some (mkEntry r (j + m)))) := by
  induction b with
  | nil =>
    intro j F c _
    simp [writeBatchGo]
  | cons hd rest ih =>
    intro j F c hb
    obtain ⟨t, idx⟩ := hd
    have hidx : (nonePos R 0)[F.length]? = some idx := by
      rw [← List.head?_drop, hb]
      rfl
    have hstep : (writeBatchGo r ((t, idx) :: rest) j (fillNones R F) c).1 =
        (writeBatchGo r rest (j + 1)
          ((fillNones R F).set idx (some (mkEntry r j)))
          (c.set t (mkEntry r j))).1 := rfl
    rw [hstep, fillNones_set R F idx (some (mkEntry r j)) hidx]
    have hb2 : (nonePos R 0).drop (F ++ [some (mkEntry r j)]).length =
        rest.map (fun p => p.2) ++
          (nonePos R 0).drop ((F ++ [some (mkEntry r j)]).length + rest.length) := by
      have hlen1 : (F ++ [some (mkEntry r j)]).length = F.length + 1 := by simp
      rw [hlen1, ← List.tail_drop, hb]
      simp only [List.map_cons, List.cons_append, List.tail_cons,
        List.length_cons]
      congr 2
      omega
    rw [ih (j + 1) (F ++ [some (mkEntry r j)]) (c.set t (mkEntry r j)) hb2]
    congr 1
    rw [List.append_assoc]
    congr 1
    rw [List.length_cons, List.range_succ_eq_map, List.map_cons, List.map_map,
      List.singleton_append]
    congr 1
    apply List.map_congr_left
    intro a _
    simp only [Function.comp]
    congr 2
    omega

theorem writeBatchGo_cache_props (r : ProviderSuccess)
    (b : List (String × Nat)) :
    ∀ (j : Nat) (results : List (Option CacheEntry)) (c : LRU),
      c.wf → c.entries.length + b.length ≤ c.max →
      ((writeBatchGo r b j results c).2).wf ∧
        ((writeBatchGo r b j results c).2).max = c.max ∧
        ((writeBatchGo r b j results c).2).entries.length ≤
          c.entries.length + b.length ∧
        (∀ k, ((writeBatchGo r b j results c).2).lookup k = none ↔
          (c.lookup k = none ∧ k ∉ b.map (fun p => p.1))) := by
  induction b with
  | nil =>
    intro j results c hwf _
    exact ⟨hwf, rfl, by simp [writeBatchGo], fun k => by simp [writeBatchGo]⟩
  | cons hd rest ih =>
    intro j results c hwf hcap
    obtain ⟨t, idx⟩ := hd
    have hroom : c.entries.length < c.max := by
      simp only [List.length_cons] at hcap
      omega
    obtain ⟨hs1, hs2, hs3, hs4⟩ :=
      LRU.set_props c t (mkEntry r j) hwf hroom
    have hstep : (writeBatchGo r ((t, idx) :: rest) j results c) =
        writeBatchGo r rest (j + 1) (results.set idx (some (mkEntry r j)))
          (c.set t (mkEntry r j)) := rfl
    rw [hstep]
    obtain ⟨ih1, ih2, ih3, ih4⟩ := ih (j + 1)
      (results.set idx (some (mkEntry r j))) (c.set t (mkEntry r j)) hs4
      (by
        rw [hs3]
        simp only [List.length_cons] at hcap
        omega)
    refine ⟨ih1, by rw [ih2, hs3], ?_, ?_⟩
    · calc ((writeBatchGo r rest (j + 1)
            (results.set idx (some (mkEntry r j)))
            (c.set t (mkEntry r j))).2).entries.length ≤
          (c.set t (mkEntry r j)).entries.length + rest.length := ih3
        _ ≤ c.entries.length + (rest.length + 1) := by omega
        _ = c.entries.length + ((t, idx) :: rest).length := by simp
    · intro k
      rw [ih4 k, hs1 k]
      by_cases hk : k = t
      · subst hk
        simp
      · simp only [if_neg hk, List.map_cons, List.mem_cons]
        constructor
        · rintro ⟨h1, h2⟩
          exact ⟨h1, by rintro (h | h); exact hk h; exact h2 h⟩
        · rintro ⟨h1, h2⟩
          exact ⟨h1, fun h => h2 (Or.inr h)⟩

theorem runBatchesGo_spec (g : Nat → List String → Except String (List Vec))
    (o : Nat → List String → Except String (List (Nat × Vec)))
    (R : List (Option CacheEntry)) (bs : List (List (String × Nat))) :
    ∀ (F : List (Option CacheEntry)) (c : LRU)
      (calls : List (String × List String)) (pmd : Option PMD),
      ((nonePos R 0).drop F.length = bs.flatten.map (fun p => p.2) ++
        (nonePos R 0).drop (F.length + bs.flatten.length)) →
      c.wf → c.entries.length + bs.flatten.length ≤ c.max →
      (∀ cl ∈ (runBatchesGo g o bs (fillNones R F) c calls pmd).2.2.2,
        cl ∈ calls ∨ cl.2 ∈ bs.map (fun b => b.map (fun p => p.1))) ∧
      (∀ p, (runBatchesGo g o bs (fillNones R F) c calls pmd).1 = .ok p →
        (runBatchesGo g o bs (fillNones R F) c calls pmd).2.1 =
          fillNones R
            (F ++ freshEntries g o (bs.map (fun b => b.map (fun q => q.1)))) ∧
        (∀ bt ∈ bs.map (fun b => b.map (fun q => q.1)),
          ∃ rr, (tryProviders g o bt).1 = .ok rr) ∧
        (∀ k,
          ((runBatchesGo g o bs (fillNones R F) c calls pmd).2.2.1).lookup k =
              none ↔
            (c.lookup k = none ∧ k ∉ bs.flatten.map (fun q => q.1))) ∧
        ((runBatchesGo g o bs (fillNones R F) c calls pmd).2.2.1).max =
          c.max ∧
        ((runBatchesGo g o bs (fillNones R F) c calls pmd).2.2.1).wf) := by
  induction bs with
  | nil =>
    intro F c calls pmd _ hwf _
    constructor
    · intro cl hcl
      exact Or.inl hcl
    · intro p _
      refine ⟨?_, ?_, ?_, rfl, hwf⟩
      · show fillNones R F = fillNones R (F ++ freshEntries g o [])
        have : freshEntries g o [] = [] := rfl
        rw [this, List.append_nil]
      · intro bt hbt
        exact absurd hbt (by simp)
      · intro k
        have hcc : (runBatchesGo g o [] (fillNones R F) c calls pmd).2.2.1 =
            c := rfl
        rw [hcc]
        simp
  | cons b rest ih =>
    intro F c calls pmd hflat hwf hcap
    simp only [List.flatten_cons, List.map_append, List.length_append,
      List.length_map] at hflat hcap
    rw [List.append_assoc] at hflat
    have h1 : ((nonePos R 0).drop F.length).drop
        ((b.map (fun p => p.2)).length) =
        (nonePos R 0).drop (F.length + b.length) := by
      rw [List.drop_drop, List.length_map]
    have hstar : (nonePos R 0).drop (F.length + b.length) =
        rest.flatten.map (fun p => p.2) ++
          (nonePos R 0).drop (F.length + b.length + rest.flatten.length) := by
      rw [← h1, hflat, List.drop_left]
      congr 2
      omega
    have hfb : (nonePos R 0).drop F.length = b.map (fun p => p.2) ++
        (nonePos R 0).drop (F.length + b.length) := by
      rw [hflat, hstar]
      congr 3
      omega
    rcases htp : tryProviders g o (b.map (fun p => p.1)) with ⟨tp1, tpcalls⟩
    have htpc : ∀ cl ∈ tpcalls, cl.2 = b.map (fun p => p.1) := by
      intro cl hcl
      exact tryProviders_calls g o (b.map (fun p => p.1)) cl
        (by rw [htp]; exact hcl)
    rcases tp1 with e | r
    · -- primary and fallback both failed on this batch: rethrow
      have hrun : runBatchesGo g o (b :: rest) (fillNones R F) c calls pmd =
          (.error e, fillNones R F, c, calls ++ tpcalls) := by
        rw [runBatchesGo, htp]
      rw [hrun]
      constructor
      · intro cl hcl
        rcases List.mem_append.1 hcl with h | h
        · exact Or.inl h
        · exact Or.inr (by
            rw [List.map_cons, List.mem_cons]
            exact Or.inl (htpc cl h))
      · intro p hp
        exact absurd hp (by simp)
    · -- this batch succeeded: write back and continue
      have hw := writeBatchGo_fill r R b 0 F c hfb
      have hE : (List.range b.length).map (fun m => some (mkEntry r (0 + m))) =
          (List.range b.length).map (fun m => some (mkEntry r m)) := by
        simp only [Nat.zero_add]
      rw [hE] at hw
      obtain ⟨hc1, hc2, hc3, hc4⟩ := writeBatchGo_cache_props r b 0
        (fillNones R F) c hwf (by omega)
      have hrun : runBatchesGo g o (b :: rest) (fillNones R F) c calls pmd =
          runBatchesGo g o rest
            ((writeBatchGo r b 0 (fillNones R F) c).1)
            ((writeBatchGo r b 0 (fillNones R F) c).2)
            (calls ++ tpcalls) (some ⟨r.provider, r.model, r.dim⟩) := by
        rw [runBatchesGo, htp]
      set E := (List.range b.length).map (fun m => some (mkEntry r m)) with hEdef
      have hElen : E.length = b.length := by simp [hEdef]
      have hflat2 : (nonePos R 0).drop (F ++ E).length =
          rest.flatten.map (fun p => p.2) ++
            (nonePos R 0).drop ((F ++ E).length + rest.flatten.length) := by
      -- index algebra via hstar
        have hl : (F ++ E).length = F.length + b.length := by
          rw [List.length_append, hElen]
        rw [hl]
        exact hstar
      obtain ⟨iht, ihs⟩ := ih (F ++ E) ((writeBatchGo r b 0 (fillNones R F) c).2)
        (calls ++ tpcalls) (some ⟨r.provider, r.model, r.dim⟩) hflat2 hc1
        (by rw [hc2]; omega)
      rw [hrun, hw]
      constructor
      · intro cl hcl
        rcases iht cl hcl with h | h
        · rcases List.mem_append.1 h with h2 | h2
          · exact Or.inl h2
          · exact Or.inr (by
              rw [List.map_cons, List.mem_cons]
              exact Or.inl (htpc cl h2))
        · exact Or.inr (by
            rw [List.map_cons, List.mem_cons]
            exact Or.inr h)
      · intro p hp
        obtain ⟨ihs1, ihs2, ihs3, ihs4, ihs5⟩ := ihs p hp
        refine ⟨?_, ?_, ?_, by rw [ihs4, hc2], ihs5⟩
        · rw [ihs1]
          have hfr : freshEntries g o
              ((b :: rest).map (fun bb => bb.map (fun q => q.1))) =
              ((match (tryProviders g o (b.map (fun q => q.1))).1 with
                | .ok rr => (List.range (b.map (fun q => q.1)).length).map
                    (fun m => some (mkEntry rr m))
                | .error _ => []) ++
                freshEntries g o (rest.map (fun bb => bb.map (fun q => q.1)))) := by
            rw [freshEntries, freshEntries, List.map_cons, List.map_cons,
              List.flatten_cons]
          simp only [htp, List.length_map] at hfr
          rw [← hEdef] at hfr
          rw [hfr, ← List.append_assoc]
        · intro bt hbt
          rw [List.map_cons, List.mem_cons] at hbt
          rcases hbt with h | h
          · subst h
            exact ⟨r, by rw [htp]⟩
          · exact ihs2 bt h
        · intro k
          rw [ihs3 k, hc4 k]
          simp only [List.flatten_cons, List.map_append, List.mem_append]
          constructor
          · rintro ⟨⟨h1, h2⟩, h3⟩
            exact ⟨h1, by rintro (h | h); exact h2 h; exact h3 h⟩
          · rintro ⟨h1, h2⟩
            exact ⟨⟨h1, fun h => h2 (Or.inl h)⟩, fun h => h2 (Or.inr h)⟩

/- ===================== C4: assembly ===================== -/

/-- Splitting into batches and flattening recovers the input. -/
theorem splitEveryGo_flatten {α : Type} (n : Nat) (l : List α) :
    ∀ cur, (splitEveryGo n l cur).flatten = cur.reverse ++ l := by
  induction l with
  | nil =>
    intro cur
    rcases cur with _ | ⟨x, xs⟩
    · rfl
    · rfl
  | cons x xs ih =>
    intro cur
    rw [splitEveryGo]
    by_cases h : n ≤ cur.length + 1
    · rw [if_pos h, List.flatten_cons, ih [], List.reverse_cons]
      simp
    · rw [if_neg h, ih (x :: cur), List.reverse_cons]
      simp

/-- Splitting into batches commutes with mapping over the elements. -/
theorem splitEveryGo_map {α β : Type} (f : α → β) (n : Nat) (l : List α) :
    ∀ cur, (splitEveryGo n l cur).map (List.map f) =
      splitEveryGo n (l.map f) (cur.map f) := by
  induction l with
  | nil =>
    intro cur
    rcases cur with _ | ⟨x, xs⟩
    · rfl
    · simp [splitEveryGo, List.map_reverse]
  | cons x xs ih =>
    intro cur
    simp only [List.map_cons]
    rw [splitEveryGo, splitEveryGo]
    by_cases h : n ≤ cur.length + 1
    · rw [if_pos h, if_pos (by rw [List.length_map]; exact h), List.map_cons,
        ih [], List.map_nil, List.map_reverse, List.map_cons]
    · rw [if_neg h, if_neg (by rw [List.length_map]; exact h), ih (x :: cur),
        List.map_cons]

theorem embsOf_cons (x : Option CacheEntry) (l : List (Option CacheEntry)) :
    embsOf (x :: l) = x.bind (fun e => e.embedding) :: embsOf l := rfl

theorem embsOf_append (a b : List (Option CacheEntry)) :
    embsOf (a ++ b) = embsOf a ++ embsOf b := List.map_append _ _ _

theorem freshEntries_cons (g : Nat → List String → Except String (List Vec))
    (o : Nat → List String → Except String (List (Nat × Vec)))
    (bt : List String) (bts : List (List String)) :
    freshEntries g o (bt :: bts) =
      (match (tryProviders g o bt).1 with
        | .ok r => (List.range bt.length).map (fun m => some (mkEntry r m))
        | .error _ => []) ++ freshEntries g o bts := rfl

theorem freshVecs_cons (g : Nat → List String → Except String (List Vec))
    (o : Nat → List String → Except String (List (Nat × Vec)))
    (bt : List String) (bts : List (List String)) :
    freshVecs g o (bt :: bts) =
      (match (tryProviders g o bt).1 with
        | .ok r => (List.range bt.length).map (fun m => r.embeddings.get? m)
        | .error _ => []) ++ freshVecs g o bts := rfl

/-- The vectors carried by the freshly written entries are exactly the
fresh provider vectors per batch. -/
theorem embsOf_freshEntries (g : Nat → List String → Except String (List Vec))
    (o : Nat → List String → Except String (List (Nat × Vec)))
    (bts : List (List String)) :
    embsOf (freshEntries g o bts) = freshVecs g o bts := by
  induction bts with
  | nil => rfl
  | cons bt rest ih =>
    rw [freshEntries_cons, freshVecs_cons, embsOf_append, ih]
    congr 1
    rcases h : (tryProviders g o bt).1 with e | r
    · simp only [h, embsOf, List.map_nil]
    · simp only [h, embsOf, List.map_map]
      exact List.map_congr_left (fun m _ => rfl)

/-- Filling the scan results and then reading the embeddings is the
spec-level ordered merge of cached and fresh vectors. -/
theorem embsOf_fillNones (c : LRU) (texts : List String) :
    ∀ F, embsOf (fillNones (texts.map (fun t => c.lookup t)) F) =
      orderedMerge c texts (embsOf F) := by
  induction texts with
  | nil => intro F; rfl
  | cons t ts ih =>
    intro F
    have hh : ((F.headD none).bind (fun e => e.embedding)) =
        (embsOf F).headD none := by
      cases F <;> rfl
    have ht : embsOf F.tail = (embsOf F).tail := by
      cases F <;> rfl
    rcases hl : c.lookup t with _ | e
    · rw [List.map_cons, hl, fillNones, embsOf_cons]
      simp only [orderedMerge, hl]
      rw [ih F.tail, hh, ht]
    · rw [List.map_cons, hl, fillNones, embsOf_cons]
      simp only [orderedMerge, hl]
      rw [ih F]
      rfl

/-- When results.map(r => r.embedding) does not throw, it returns the
embedding of every slot. -/
theorem collectEmbeddings_ok :
    ∀ (l : List (Option CacheEntry)) (embs : List (Option Vec)),
      collectEmbeddings l = .ok embs → embs = embsOf l := by
  intro l
  induction l with
  | nil =>
    intro embs h
    rw [collectEmbeddings] at h
    cases h
    rfl
  | cons x rest ih =>
    intro embs h
    rcases x with _ | e
    · rw [collectEmbeddings] at h
      exact absurd h (by simp)
    · rw [collectEmbeddings] at h
      rcases hc : collectEmbeddings rest with er | tl <;> rw [hc] at h
      · exact absurd h (by simp)
      · cases h
        rw [embsOf_cons, ← ih tl hc]
        rfl

/-- A second call on a single cached text makes no provider call. -/
theorem embedTexts_hit_no_calls (g : Nat → List String → Except String (List Vec))
    (o : Nat → List String → Except String (List (Nat × Vec)))
    (c : LRU) (t : String) (e : CacheEntry) (hwf : c.wf)
    (hl : c.lookup t = some e) :
    (embedTexts g o c [t]).2.2 = [] := by
  obtain ⟨hs1, hs2, _, _, _, _⟩ := scanCacheGo_spec [t] c 0 hwf
  have hu : (scanCacheGo c [t] 0).2.2 = [] := by
    rw [hs2, List.enumFrom_cons]
    simp [List.filter_cons, hl]
  have hr : (scanCacheGo c [t] 0).2.1 = [some e] := by
    rw [hs1]
    simp [hl]
  simp only [embedTexts, hu, hr]
  rfl

/-- With no cache miss, embedTexts makes no provider call. -/
theorem embedTexts_nomiss_trace (g : Nat → List String → Except String (List Vec))
    (o : Nat → List String → Except String (List (Nat × Vec)))
    (c : LRU) (texts : List String)
    (hu : (scanCacheGo c texts 0).2.2 = []) :
    (embedTexts g o c texts).2.2 = [] := by
  simp only [embedTexts, hu]
  rw [if_pos (show (([] : List (String × Nat)).isEmpty = true) from rfl)]
  rcases hce : collectEmbeddings (scanCacheGo c texts 0).2.1 with e1 | embs
  · rfl
  · rcases hres : (scanCacheGo c texts 0).2.1 with _ | ⟨x, rest⟩
    · rfl
    · rcases x with _ | r0
      · rfl
      · rfl

/-- With no cache miss, the returned cache is the scanned cache. -/
theorem embedTexts_nomiss_cache (g : Nat → List String → Except String (List Vec))
    (o : Nat → List String → Except String (List (Nat × Vec)))
    (c : LRU) (texts : List String)
    (hu : (scanCacheGo c texts 0).2.2 = []) :
    (embedTexts g o c texts).2.1 = (scanCacheGo c texts 0).1 := by
  simp only [embedTexts, hu]
  rw [if_pos (show (([] : List (String × Nat)).isEmpty = true) from rfl)]
  rcases hce : collectEmbeddings (scanCacheGo c texts 0).2.1 with e1 | embs
  · rfl
  · rcases hres : (scanCacheGo c texts 0).2.1 with _ | ⟨x, rest⟩
    · rfl
    · rcases x with _ | r0
      · rfl
      · rfl

/-- With no cache miss, a successful result reads the collected
embeddings of the scan results. -/
theorem embedTexts_nomiss_ok (g : Nat → List String → Except String (List Vec))
    (o : Nat → List String → Except String (List (Nat × Vec)))
    (c : LRU) (texts : List String)
    (hu : (scanCacheGo c texts 0).2.2 = []) (er : EmbedResult)
    (her : (embedTexts g o c texts).1 = .ok er) :
    ∃ embs, collectEmbeddings ((scanCacheGo c texts 0).2.1) = .ok embs ∧
      er.embeddings = embs := by
  simp only [embedTexts, hu] at her
  rw [if_pos (show (([] : List (String × Nat)).isEmpty = true) from rfl)] at her
  rcases hce : collectEmbeddings (scanCacheGo c texts 0).2.1 with e1 | embs
  · simp only [hce] at her
    exact absurd her (by simp)
  · simp only [hce] at her
    rcases hres : (scanCacheGo c texts 0).2.1 with _ | ⟨x, rest⟩
    · simp only [hres] at her
      exact absurd her (by simp)
    · rcases x with _ | r0
      · simp only [hres] at her
        exact absurd her (by simp)
      · simp only [hres] at her
        injection her with h
        exact ⟨embs, rfl, congrArg EmbedResult.embeddings h.symm⟩

/-- With at least one miss, the provider calls are those of the batch
loop over the uncached subset. -/
theorem embedTexts_miss_trace (g : Nat → List String → Except String (List Vec))
    (o : Nat → List String → Except String (List (Nat × Vec)))
    (c : LRU) (texts : List String) (p0 : String × Nat)
    (urest : List (String × Nat))
    (hu : (scanCacheGo c texts 0).2.2 = p0 :: urest) :
    (embedTexts g o c texts).2.2 =
      (runBatchesGo g o (splitEvery BATCH_SIZE (p0 :: urest))
        (scanCacheGo c texts 0).2.1 (scanCacheGo c texts 0).1 []
        none).2.2.2 := by
  simp only [embedTexts, hu]
  rw [if_neg (by simp)]
  rcases ho : (runBatchesGo g o (splitEvery BATCH_SIZE (p0 :: urest))
      (scanCacheGo c texts 0).2.1 (scanCacheGo c texts 0).1 []
      none).1 with e | pmd
  · rfl
  · rcases hcE : collectEmbeddings (runBatchesGo g o
        (splitEvery BATCH_SIZE (p0 :: urest)) (scanCacheGo c texts 0).2.1
        (scanCacheGo c texts 0).1 [] none).2.1 with e2 | embs
    · rfl
    · rfl

/-- With at least one miss, the returned cache is the one left by the
batch loop. -/
theorem embedTexts_miss_cache (g : Nat → List String → Except String (List Vec))
    (o : Nat → List String → Except String (List (Nat × Vec)))
    (c : LRU) (texts : List String) (p0 : String × Nat)
    (urest : List (String × Nat))
    (hu : (scanCacheGo c texts 0).2.2 = p0 :: urest) :
    (embedTexts g o c texts).2.1 =
      (runBatchesGo g o (splitEvery BATCH_SIZE (p0 :: urest))
        (scanCacheGo c texts 0).2.1 (scanCacheGo c texts 0).1 []
        none).2.2.1 := by
  simp only [embedTexts, hu]
  rw [if_neg (by simp)]
  rcases ho : (runBatchesGo g o (splitEvery BATCH_SIZE (p0 :: urest))
      (scanCacheGo c texts 0).2.1 (scanCacheGo c texts 0).1 []
      none).1 with e | pmd
  · rfl
  · rcases hcE : collectEmbeddings (runBatchesGo g o
        (splitEvery BATCH_SIZE (p0 :: urest)) (scanCacheGo c texts 0).2.1
        (scanCacheGo c texts 0).1 [] none).2.1 with e2 | embs
    · rfl
    · rfl

/-- With at least one miss, a successful result means the batch loop
succeeded and the embeddings are collected from the written results. -/
theorem embedTexts_miss_ok (g : Nat → List String → Except String (List Vec))
    (o : Nat → List String → Except String (List (Nat × Vec)))
    (c : LRU) (texts : List String) (p0 : String × Nat)
    (urest : List (String × Nat))
    (hu : (scanCacheGo c texts 0).2.2 = p0 :: urest) (er : EmbedResult)
    (her : (embedTexts g o c texts).1 = .ok er) :
    ∃ pmd embs,
      (runBatchesGo g o (splitEvery BATCH_SIZE (p0 :: urest))
          (scanCacheGo c texts 0).2.1 (scanCacheGo c texts 0).1 []
          none).1 = .ok pmd ∧
      collectEmbeddings (runBatchesGo g o (splitEvery BATCH_SIZE (p0 :: urest))
          (scanCacheGo c texts 0).2.1 (scanCacheGo c texts 0).1 []
          none).2.1 = .ok embs ∧
      er.embeddings = embs := by
  simp only [embedTexts, hu] at her
  rw [if_neg (by simp)] at her
  rcases ho : (runBatchesGo g o (splitEvery BATCH_SIZE (p0 :: urest))
      (scanCacheGo c texts 0).2.1 (scanCacheGo c texts 0).1 []
      none).1 with e | pmd
  · simp only [ho] at her
    exact absurd her (by simp)
  · simp only [ho] at her
    rcases hcE : collectEmbeddings (runBatchesGo g o
        (splitEvery BATCH_SIZE (p0 :: urest)) (scanCacheGo c texts 0).2.1
        (scanCacheGo c texts 0).1 [] none).2.1 with e2 | embs
    · simp only [hcE] at her
      exact absurd her (by simp)
    · simp only [hcE] at her
      injection her with h
      exact ⟨pmd, embs, rfl, rfl, congrArg EmbedResult.embeddings h.symm⟩

/-- C4: a call to embedTexts on a cache that can hold all inputs sends
only the uncached subset to providers, batch by batch, and on success the
returned embeddings are the ordered merge of cached vectors and fresh
provider vectors back into original input positions, one per input; after
a successful call every input text is cached, so submitting it again in
the same process yields a cache hit and no provider call. -/
theorem embed_cache_reassembly
    (g : Nat → List String → Except String (List Vec))
    (o : Nat → List String → Except String (List (Nat × Vec)))
    (c : LRU) (texts : List String)
    (hwf : c.wf) (hcap : c.entries.length + texts.length ≤ c.max) :
    (∀ cl ∈ (embedTexts g o c texts).2.2,
      cl.2 ∈ splitEvery BATCH_SIZE (missesOf c texts)) ∧
    (∀ er, (embedTexts g o c texts).1 = .ok er →
      er.embeddings =
        orderedMerge c texts
          (freshVecs g o (splitEvery BATCH_SIZE (missesOf c texts))) ∧
      er.embeddings.length = texts.length ∧
      (∀ t ∈ texts, ∀ (g2 : Nat → List String → Except String (List Vec))
        (o2 : Nat → List String → Except String (List (Nat × Vec))),
        (embedTexts g2 o2 (embedTexts g o c texts).2.1 [t]).2.2 = [])) := by
  obtain ⟨hs1, hs2, hs3, hs4, hs5, hs6⟩ := scanCacheGo_spec texts c 0 hwf
  rcases hu : (scanCacheGo c texts 0).2.2 with _ | ⟨p0, urest⟩
  · -- every input hits the cache: no provider call, cached reassembly
    have hmiss : missesOf c texts = [] := by
      rw [← uncached_fst_eq_misses c texts 0, ← hs2, hu]
      rfl
    constructor
    · intro cl hcl
      rw [embedTexts_nomiss_trace g o c texts hu] at hcl
      exact absurd hcl (List.not_mem_nil cl)
    · intro er her
      obtain ⟨embs, hce, hermb⟩ := embedTexts_nomiss_ok g o c texts hu er her
      have h0 := collectEmbeddings_ok _ _ hce
      rw [hs1] at h0
      have h1 := embsOf_fillNones c texts []
      rw [fillNones_nil] at h1
      refine ⟨?_, ?_, ?_⟩
      · rw [hermb, hmiss]
        exact h0.trans h1
      · rw [hermb, h0]
        simp [embsOf]
      · intro t ht g2 o2
        rcases hlt : c.lookup t with _ | e
        · exfalso
          have hm : t ∈ missesOf c texts := by
            rw [missesOf, List.mem_filter]
            exact ⟨ht, by simp [hlt]⟩
          rw [hmiss] at hm
          exact absurd hm (List.not_mem_nil t)
        · rw [embedTexts_nomiss_cache g o c texts hu]
          exact embedTexts_hit_no_calls g2 o2 _ t e hs6
            (by rw [hs3 t]; exact hlt)
  · -- at least one miss: the batch loop runs on the uncached subset
    have husnd : (p0 :: urest).map (fun p => p.2) =
        nonePos (texts.map (fun t => c.lookup t)) 0 := by
      rw [← hu, hs2]
      exact uncached_snd_eq_nonePos c texts 0
    have husfst : (p0 :: urest).map (fun p => p.1) = missesOf c texts := by
      rw [← hu, hs2]
      exact uncached_fst_eq_misses c texts 0
    have hbf : (splitEvery BATCH_SIZE (p0 :: urest)).flatten = p0 :: urest := by
      rw [splitEvery, splitEveryGo_flatten]
      rfl
    have hlen : (nonePos (texts.map (fun t => c.lookup t)) 0).length =
        (p0 :: urest).length := by
      rw [← husnd, List.length_map]
    have hulen : (p0 :: urest).length ≤ texts.length := by
      rw [← hu, hs2, List.length_map]
      have hf1 : ((texts.enumFrom 0).filter
          (fun p => (c.lookup p.2).isNone)).length ≤
          (texts.enumFrom 0).length := List.length_filter_le _ _
      have hf2 : (texts.enumFrom 0).length = texts.length := by simp
      omega
    have hflat : (nonePos (texts.map (fun t => c.lookup t)) 0).drop
        ([] : List (Option CacheEntry)).length =
        (splitEvery BATCH_SIZE (p0 :: urest)).flatten.map (fun p => p.2) ++
          (nonePos (texts.map (fun t => c.lookup t)) 0).drop
            (([] : List (Option CacheEntry)).length +
              (splitEvery BATCH_SIZE (p0 :: urest)).flatten.length) := by
      rw [hbf, husnd]
      simp only [List.length_nil, List.drop_zero, Nat.zero_add]
      rw [← hlen, List.drop_length, List.append_nil]
    have hcap2 : ((scanCacheGo c texts 0).1).entries.length +
        (splitEvery BATCH_SIZE (p0 :: urest)).flatten.length ≤
          ((scanCacheGo c texts 0).1).max := by
      rw [hs4, hs5, hbf]
      omega
    obtain ⟨hT, hS⟩ := runBatchesGo_spec g o (texts.map (fun t => c.lookup t))
      (splitEvery BATCH_SIZE (p0 :: urest)) [] (scanCacheGo c texts 0).1 []
      none hflat hs6 hcap2
    rw [fillNones_nil] at hT hS
    have hbm : (splitEvery BATCH_SIZE (p0 :: urest)).map
        (fun b => b.map (fun q => q.1)) =
        splitEvery BATCH_SIZE (missesOf c texts) := by
      have h1 : (splitEvery BATCH_SIZE (p0 :: urest)).map
          (List.map (fun q : String × Nat => q.1)) =
          splitEveryGo BATCH_SIZE ((p0 :: urest).map (fun q => q.1)) [] := by
        rw [splitEvery, splitEveryGo_map, List.map_nil]
      rw [show (fun (b : List (String × Nat)) => b.map (fun q => q.1)) =
          List.map (fun q : String × Nat => q.1) from rfl]
      rw [h1, husfst]
      rfl
    constructor
    · intro cl hcl
      rw [embedTexts_miss_trace g o c texts p0 urest hu, hs1] at hcl
      rcases hT cl hcl with h | h
      · exact absurd h (List.not_mem_nil cl)
      · rw [← hbm]
        exact h
    · intro er her
      obtain ⟨pmd, embs, ho, hcE, hermb⟩ :=
        embedTexts_miss_ok g o c texts p0 urest hu er her
      rw [hs1] at ho hcE
      obtain ⟨hS1, hS2, hS3, hS4, hS5⟩ := hS pmd ho
      rw [List.nil_append] at hS1
      have h0 := collectEmbeddings_ok _ _ hcE
      rw [hS1, embsOf_fillNones, embsOf_freshEntries, hbm] at h0
      refine ⟨?_, ?_, ?_⟩
      · rw [hermb]
        exact h0
      · have h2 := collectEmbeddings_ok _ _ hcE
        rw [hS1] at h2
        rw [hermb, h2]
        simp [embsOf, fillNones_length]
      · intro t ht g2 o2
        rw [embedTexts_miss_cache g o c texts p0 urest hu, hs1]
        rcases hfin : ((runBatchesGo g o (splitEvery BATCH_SIZE (p0 :: urest))
            (texts.map (fun t => c.lookup t)) (scanCacheGo c texts 0).1 []
            none).2.2.1).lookup t with _ | efin
        · exfalso
          rw [hS3 t] at hfin
          obtain ⟨hf1, hf2⟩ := hfin
          rcases hlt : c.lookup t with _ | e
          · apply hf2
            rw [hbf, husfst, missesOf, List.mem_filter]
            exact ⟨ht, by simp [hlt]⟩
          · rw [hs3 t, hlt] at hf1
            exact Option.noConfusion hf1
        · exact embedTexts_hit_no_calls g2 o2 _ t efin hS5 hfin

def cacheW : LRU :=
  ⟨4, [("hit", ⟨some [7, 8], 2, "google", "text-embedding-004"⟩)]⟩

def gW : Nat → List String → Except String (List Vec) :=
  fun _ ts => .ok (ts.map (fun _ => [9, 9]))

def oW : Nat → List String → Except String (List (Nat × Vec)) :=
  fun _ _ => .error "offline"

theorem embed_cache_reassembly_witness :
    cacheW.wf ∧
    ((∀ cl ∈ (embedTexts gW oW cacheW ["hit", "miss"]).2.2,
      cl.2 ∈ splitEvery BATCH_SIZE (missesOf cacheW ["hit", "miss"])) ∧
    (∀ er, (embedTexts gW oW cacheW ["hit", "miss"]).1 = .ok er →
      er.embeddings =
        orderedMerge cacheW ["hit", "miss"]
          (freshVecs gW oW
            (splitEvery BATCH_SIZE (missesOf cacheW ["hit", "miss"]))) ∧
      er.embeddings.length = (["hit", "miss"] : List String).length ∧
      (∀ t ∈ (["hit", "miss"] : List String),
        ∀ (g2 : Nat → List String → Except String (List Vec))
          (o2 : Nat → List String → Except String (List (Nat × Vec))),
        (embedTexts g2 o2 (embedTexts gW oW cacheW ["hit", "miss"]).2.1
          [t]).2.2 = []))) :=
  ⟨(by decide : (cacheW.entries.map Prod.fst).Nodup),
    embed_cache_reassembly gW oW cacheW ["hit", "miss"]
      (by decide : (cacheW.entries.map Prod.fst).Nodup) (by decide)⟩


/- ===================== C7: normalizer round-trip lemmas ===================== -/

theorem splitOnAmp_lit (c : Char) (l : List Char) (h : c ≠ '&') :
    splitOnAmp (c :: l) =
      (match splitOnAmp l with
       | [] => [[c]]
       | p :: ps => (c :: p) :: ps) := by
  rw [splitOnAmp.eq_def]
  split <;> simp_all

theorem splitOnAmp_cons_ne (c : Char) (l : List Char) (h : c ≠ '&')
    (p : List Char) (ps : List (List Char)) (hl : splitOnAmp l = p :: ps) :
    splitOnAmp (c :: l) = (c :: p) :: ps := by
  rw [splitOnAmp_lit c l h, hl]

theorem splitOnAmp_ne_nil : ∀ l : List Char, splitOnAmp l ≠ [] := by
  intro l
  induction l with
  | nil => simp [splitOnAmp]
  | cons c t ih =>
    by_cases hc : c = '&'
    · subst hc
      rw [show splitOnAmp ('&' :: t) = [] :: splitOnAmp t from rfl]
      simp
    · rcases hl : splitOnAmp t with _ | ⟨p, ps⟩
      · exact absurd hl ih
      · rw [splitOnAmp_cons_ne c t hc p ps hl]
        simp

end KB
